import Mathlib

set_option maxHeartbeats 1000000
set_option maxRecDepth 8192

namespace Myzod

/-
Shallow embedding of `src/src/index.ts` (myzod): runtime values, schema
nodes, and the recursive `parse` validation algorithm with path-annotated
errors. Mutual inductives are used instead of nested `List`s so that all
recursions are structural and concrete runs reduce by `rfl` / `decide`.
-/

mutual

/- Runtime values handed to `parse` (the `unknown` inputs of the source).
   JS numbers are modelled as `Int`; objects are ordered own-key
   association lists (JS objects have no duplicate keys). -/
inductive Value where
  | vstr (s : String)
  | vnum (n : Int)
  | vbool (b : Bool)
  | vundef
  | vnull
  | varr (elems : ValueList)
  | vobj (fields : Fields)

inductive ValueList where
  | nil
  | cons (v : Value) (rest : ValueList)

inductive Fields where
  | nil
  | cons (k : String) (v : Value) (rest : Fields)

end

/- The `Literal` type of the source: `string | number | boolean | undefined | null`. -/
inductive Lit where
  | lstr (s : String)
  | lnum (n : Int)
  | lbool (b : Bool)
  | lundef
  | lnull
deriving DecidableEq

/- `ObjectOptions` of the source: both fields are optional booleans
   (`none` models an absent key of the options object). -/
structure ObjectOptions where
  allowUnknown : Option Bool
  suppressPathErrMsg : Option Bool
deriving DecidableEq

mutual

/- Schema nodes: one constructor per `Type` subclass of the source.
   `union`'s `Option Bool` is the `strict` option (`none` models both an
   absent `opts` object and an absent `strict` key, which the source
   treats identically via `this.opts?.strict`). -/
inductive Schema where
  | string
  | boolean
  | number
  | undef
  | nul
  | literal (l : Lit)
  | unknown
  | object (shape : Shape) (opts : ObjectOptions)
  | array (elem : Schema)
  | union (schemas : SchemaList) (strict : Option Bool)
  | intersection (left right : Schema)

inductive Shape where
  | nil
  | cons (k : String) (s : Schema) (rest : Shape)

inductive SchemaList where
  | nil
  | cons (s : Schema) (rest : SchemaList)

end

/- Path segments: `(string | number)[]` of `ValidationError.path`. -/
inductive Seg where
  | key (k : String)
  | idx (i : Nat)
deriving DecidableEq

/- `ValidationError`: a message and an optional path. -/
structure ValidationError where
  message : String
  path : Option (List Seg)
deriving DecidableEq

/- `typeOf` of the source (line 27). -/
def typeOf (v : Value) : String :=
  match v with
  | .vnull => "null"
  | .varr _ => "array"
  | .vstr _ => "string"
  | .vnum _ => "number"
  | .vbool _ => "boolean"
  | .vundef => "undefined"
  | .vobj _ => "object"

/- Decimal digit character (used for rendering numbers into strings). -/
def digitCh (n : Nat) : Char :=
  if n = 0 then '0' else if n = 1 then '1' else if n = 2 then '2'
  else if n = 3 then '3' else if n = 4 then '4' else if n = 5 then '5'
  else if n = 6 then '6' else if n = 7 then '7' else if n = 8 then '8'
  else if n = 9 then '9' else if n = 10 then 'a' else if n = 11 then 'b'
  else if n = 12 then 'c' else if n = 13 then 'd' else if n = 14 then 'e'
  else 'f'

/- Decimal rendering of a natural number (JS number-to-string for the
   array indices and numeric literals that reach messages).  Fuel-based so
   that it is structurally recursive and kernel-reducible; `n + 1` units of
   fuel always suffice since the quotient shrinks by a factor of ten. -/
def decDigits : Nat → Nat → List Char
  | 0, _ => []
  | fuel + 1, n => if n < 10 then [digitCh n] else decDigits fuel (n / 10) ++ [digitCh (n % 10)]

def decRepr (n : Nat) : String :=
  ⟨decDigits (n + 1) n⟩

def intRepr (i : Int) : String :=
  match i with
  | .ofNat n => decRepr n
  | .negSucc n => "-" ++ decRepr (n + 1)

/- JSON string escaping as performed by `JSON.stringify` on strings. -/
def escapeChar (c : Char) : String :=
  if c = '"' then "\\\""
  else if c = '\\' then "\\\\"
  else if c = '\n' then "\\n"
  else if c = '\r' then "\\r"
  else if c = '\t' then "\\t"
  else if c = '\x08' then "\\b"
  else if c = '\x0c' then "\\f"
  else if c.toNat < 32 then "\\u00" ++ ⟨[digitCh (c.toNat / 16), digitCh (c.toNat % 16)]⟩
  else String.singleton c

/- Plain concatenation of a list of strings. -/
def strConcat : List String → String
  | [] => ""
  | s :: rest => s ++ strConcat rest

def jsonQuote (s : String) : String :=
  "\"" ++ strConcat (s.toList.map escapeChar) ++ "\""

/- Comma-separated concatenation, as `JSON.stringify` renders array items. -/
def strCommaSep : List String → String
  | [] => ""
  | [s] => s
  | s :: rest => s ++ "," ++ strCommaSep rest

/- `JSON.stringify` of an array of strings (used for the unexpected-keys
   message of `ObjectType.parse`, line 151). -/
def jsonStringifyStrings (keys : List String) : String :=
  "[" ++ strCommaSep (keys.map jsonQuote) ++ "]"

/- `JSON.stringify(this.literal)` as it appears inside a template string:
   `undefined` stringifies to the token `undefined` in the rendered text. -/
def stringifyLit (l : Lit) : String :=
  match l with
  | .lstr s => jsonQuote s
  | .lnum n => intRepr n
  | .lbool true => "true"
  | .lbool false => "false"
  | .lundef => "undefined"
  | .lnull => "null"

/- Strict equality `value === this.literal` (literals are primitives, so
   `===` coincides with structural equality on the primitive variants). -/
def litEq (l : Lit) (v : Value) : Bool :=
  match l, v with
  | .lstr s, .vstr s' => s == s'
  | .lnum n, .vnum n' => n == n'
  | .lbool b, .vbool b' => b == b'
  | .lundef, .vundef => true
  | .lnull, .vnull => true
  | _, _ => false

/- The `got` operand of the literal mismatch message (line 108):
   `typeof value !== 'object' ? JSON.stringify(value) : typeOf(value)`. -/
def litGotRepr (v : Value) : String :=
  match v with
  | .vnull => "null"
  | .varr _ => "array"
  | .vobj _ => "object"
  | .vstr s => jsonQuote s
  | .vnum n => intRepr n
  | .vbool true => "true"
  | .vbool false => "false"
  | .vundef => "undefined"

/- `prettyPrintPath` of the source (line 37): numeric segments render as
   `[n]`, the first string segment renders bare, later ones with a dot. -/
def prettyPrintPath (path : List Seg) : String :=
  (path.foldl
    (fun (p : String × Nat) elem =>
      match elem with
      | Seg.idx n => (p.1 ++ "[" ++ decRepr n ++ "]", p.2 + 1)
      | Seg.key k => (if p.2 == 0 then p.1 ++ k else p.1 ++ "." ++ k, p.2 + 1))
    ("", 0)).1

/- JS truthiness of an optional boolean option value. -/
def truthy (o : Option Bool) : Bool :=
  match o with
  | some b => b
  | none => false

/- `{ ...this.opts, ...optOverrides }` (line 147): an override key that is
   present wins over the node's own key. -/
def mergeOpts (nodeOpts ov : ObjectOptions) : ObjectOptions :=
  ⟨match ov.allowUnknown with
    | some b => some b
    | none => nodeOpts.allowUnknown,
   match ov.suppressPathErrMsg with
    | some b => some b
    | none => nodeOpts.suppressPathErrMsg⟩

/- The empty options record: a call `schema.parse(value)` with no second
   argument. -/
def noOpts : ObjectOptions := ⟨none, none⟩

/- Own-key operations on object values. -/
def keysOf : Fields → List String
  | .nil => []
  | .cons k _ rest => k :: keysOf rest

def hasKey (fields : Fields) (k : String) : Bool :=
  (keysOf fields).contains k

def getField : Fields → String → Option Value
  | .nil, _ => none
  | .cons k' v rest, k => if k' == k then some v else getField rest k

/- `(value as any)[key]`: an absent key reads as `undefined`. -/
def getFieldD (fields : Fields) (k : String) : Value :=
  match getField fields k with
  | some v => v
  | none => Value.vundef

/- `acc[key] = ...`: overwrite an existing own key in place, else append. -/
def setKey : Fields → String → Value → Fields
  | .nil, k, w => .cons k w .nil
  | .cons k' v rest, k, w =>
    if k' == k then .cons k w rest else .cons k' v (setKey rest k w)

/- Child-node classification used by the `instanceof` tests of the source. -/
inductive Kind where
  | obj
  | arr
  | unk
  | plain
deriving DecidableEq, BEq

def kindOf (s : Schema) : Kind :=
  match s with
  | .object _ _ => .obj
  | .array _ => .arr
  | .unknown => .unk
  | _ => .plain

def unknownKeyMsg (key : String) : String :=
  "expected key \"" ++ key ++ "\" of unknown type to be present on object"

/- The catch block of `ObjectType.parse` (lines 168-173). -/
def wrapObjectErr (suppress : Bool) (key : String) (err : ValidationError) : ValidationError :=
  let path := Seg.key key :: (err.path.getD [])
  ⟨if suppress then err.message
   else "error parsing object at path: \"" ++ prettyPrintPath path ++ "\" - " ++ err.message,
   some path⟩

/- The catch block of `ArrayType.parse` (lines 195-198). -/
def wrapArrayErr (suppress : Bool) (idx : Nat) (err : ValidationError) : ValidationError :=
  let path := Seg.idx idx :: (err.path.getD [])
  ⟨if suppress then err.message
   else "error at " ++ prettyPrintPath path ++ " - " ++ err.message,
   some path⟩

/- The per-key loop of `ObjectType.parse` (lines 155-175), abstracted over
   the child validators (`runners` pairs each declared key with the child's
   `instanceof` classification and its `parse` function).  `fields` is the
   input object, `acc` the accumulator initialised to `{ ...value }`,
   `merged` the merged options of the object call. -/
def runFields (runners : List (String × Kind × (Value → ObjectOptions → Except ValidationError Value)))
    (fields : Fields) (acc : Fields) (merged : ObjectOptions) :
    Except ValidationError Fields :=
  match runners with
  | [] => .ok acc
  | (key, kind, f) :: rest =>
    let step : Except ValidationError Value :=
      if kind == Kind.unk && !(hasKey fields key) then
        .error ⟨unknownKeyMsg key, none⟩
      else
        match kind with
        | .obj => f (getFieldD fields key) ⟨merged.allowUnknown, some true⟩
        | .arr => f (getFieldD fields key) ⟨none, some true⟩
        | _ => f (getFieldD fields key) noOpts
    match step with
    | .ok w => runFields rest fields (setKey acc key w) merged
    | .error err => .error (wrapObjectErr (truthy merged.suppressPathErrMsg) key err)

/- The `forEach` loop of `ArrayType.parse` (lines 188-200): `special` is
   true when the element schema is an Object or Array node. -/
def runElems (f : Value → ObjectOptions → Except ValidationError Value) (special : Bool)
    (suppress : Bool) : ValueList → Nat → Except ValidationError Unit
  | .nil, _ => .ok ()
  | .cons e rest, idx =>
    match (if special then f e ⟨none, some true⟩ else f e noOpts) with
    | .ok _ => runElems f special suppress rest (idx + 1)
    | .error err => .error (wrapArrayErr suppress idx err)

/- The candidate loop of `UnionType.parse` (lines 214-227): `isObj` marks
   Object candidates, `strictFalse` is `this.opts?.strict === false`. -/
def runUnion (strictFalse : Bool) (v : Value) (errs : List String) :
    List (Bool × (Value → ObjectOptions → Except ValidationError Value)) →
    Except ValidationError Value
  | [] => .error ⟨"No union satisfied:\n  " ++ String.intercalate "\n  " errs, none⟩
  | (isObj, f) :: rest =>
    match (if strictFalse && isObj then f v ⟨some true, none⟩ else f v noOpts) with
    | .ok w => .ok w
    | .error err => runUnion strictFalse v (errs ++ [err.message]) rest

mutual

/- `parse` of every `Type` subclass, dispatching on the node variant.
   The second options argument models the optional `optOverrides` /
   `opts` parameter (leaf nodes, unions and intersections ignore it,
   exactly as their source `parse(value)` signatures do). -/
def Schema.parse : Schema → Value → ObjectOptions → Except ValidationError Value
  | .string, v, _ =>
    match v with
    | .vstr _ => .ok v
    | _ => .error ⟨"expected type to be string but got " ++ typeOf v, none⟩
  | .boolean, v, _ =>
    match v with
    | .vbool _ => .ok v
    | _ => .error ⟨"expected type to be boolean but got " ++ typeOf v, none⟩
  | .number, v, _ =>
    match v with
    | .vnum _ => .ok v
    | _ => .error ⟨"expected type to be number but got " ++ typeOf v, none⟩
  | .undef, v, _ =>
    match v with
    | .vundef => .ok v
    | _ => .error ⟨"expected type to be undefined but got " ++ typeOf v, none⟩
  | .nul, v, _ =>
    match v with
    | .vnull => .ok v
    | _ => .error ⟨"expected type to be null but got " ++ typeOf v, none⟩
  | .literal l, v, _ =>
    if litEq l v then .ok v
    else .error ⟨"expected value to be literal " ++ stringifyLit l ++ " but got " ++ litGotRepr v, none⟩
  | .unknown, v, _ => .ok v
  | .object shape opts, v, ov =>
    match v with
    | .vnull => .error ⟨"expected object but got null", none⟩
    | .varr _ => .error ⟨"expected type to be regular object but got array", none⟩
    | .vobj fields =>
      let keys := shapeKeys shape
      let merged := mergeOpts opts ov
      if truthy merged.allowUnknown then
        match runFields (shapeRunners shape) fields fields merged with
        | .ok out => .ok (.vobj out)
        | .error e => .error e
      else
        let illegalKeys := (keysOf fields).filter (fun x => !(keys.contains x))
        if illegalKeys.isEmpty then
          match runFields (shapeRunners shape) fields fields merged with
          | .ok out => .ok (.vobj out)
          | .error e => .error e
        else
          .error ⟨"unexpected keys on object: " ++ jsonStringifyStrings illegalKeys, none⟩
    | _ => .error ⟨"expected type to be object but got " ++ typeOf v, none⟩
  | .array es, v, ov =>
    match v with
    | .varr elems =>
      match runElems (fun w o => Schema.parse es w o)
          (kindOf es == Kind.obj || kindOf es == Kind.arr)
          (truthy ov.suppressPathErrMsg) elems 0 with
      | .ok _ => .ok (.varr elems)
      | .error e => .error e
    | _ => .error ⟨"expected an array but got " ++ typeOf v, none⟩
  | .union schemas strict, v, _ =>
    runUnion (strict == some false) v [] (unionRunners schemas)
  | .intersection l r, v, _ =>
    match (if kindOf l == Kind.obj then Schema.parse l v ⟨some true, none⟩
           else Schema.parse l v noOpts) with
    | .error e => .error e
    | .ok _ =>
      match (if kindOf r == Kind.obj then Schema.parse r v ⟨some true, none⟩
             else Schema.parse r v noOpts) with
      | .error e => .error e
      | .ok _ => .ok v

/- `Object.keys(this.objectShape)` (line 146). -/
def shapeKeys : Shape → List String
  | .nil => []
  | .cons k _ rest => k :: shapeKeys rest

def shapeRunners : Shape → List (String × Kind × (Value → ObjectOptions → Except ValidationError Value))
  | .nil => []
  | .cons k s rest => (k, kindOf s, fun v ov => Schema.parse s v ov) :: shapeRunners rest

def unionRunners : SchemaList → List (Bool × (Value → ObjectOptions → Except ValidationError Value))
  | .nil => []
  | .cons s rest => (kindOf s == Kind.obj, fun v ov => Schema.parse s v ov) :: unionRunners rest

end

/- List views of the custom sequence types, used to state claims. -/
def Shape.toList : Shape → List (String × Schema)
  | .nil => []
  | .cons k s rest => (k, s) :: Shape.toList rest

def SchemaList.toList : SchemaList → List Schema
  | .nil => []
  | .cons s rest => s :: SchemaList.toList rest

def ValueList.toList : ValueList → List Value
  | .nil => []
  | .cons v rest => v :: ValueList.toList rest

/- First declared schema for a key (`this.objectShape[key]`). -/
def shapeGet : Shape → String → Option Schema
  | .nil, _ => none
  | .cons k s rest, k' => if k == k' then some s else shapeGet rest k'

def isOk (r : Except ValidationError Value) : Bool :=
  match r with
  | .ok _ => true
  | .error _ => false

def isError (r : Except ValidationError Value) : Bool :=
  match r with
  | .ok _ => false
  | .error _ => true

def errMsg (r : Except ValidationError Value) : String :=
  match r with
  | .ok _ => ""
  | .error e => e.message

/- The validation attempt a union performs on one candidate (lines
   217-221): with `strict` explicitly `false`, Object candidates are
   validated with `allowUnknown` forced true. -/
def unionAttempt (strict : Option Bool) (s : Schema) (v : Value) : Except ValidationError Value :=
  if strict == some false && kindOf s == Kind.obj then Schema.parse s v ⟨some true, none⟩
  else Schema.parse s v noOpts

/- The validation attempt an intersection performs on one branch (lines
   236-243): Object branches get `allowUnknown` forced true. -/
def interAttempt (s : Schema) (v : Value) : Except ValidationError Value :=
  if kindOf s == Kind.obj then Schema.parse s v ⟨some true, none⟩
  else Schema.parse s v noOpts

/- The validation attempt an array performs on one element (lines
   190-194): Object/Array element schemas get the prefix suppressed. -/
def elemAttempt (es : Schema) (e : Value) : Except ValidationError Value :=
  if kindOf es == Kind.obj || kindOf es == Kind.arr then Schema.parse es e ⟨none, some true⟩
  else Schema.parse es e noOpts

/- The recursive validation an object node performs for one declared key
   (lines 161-167), given the merged options of the object call. -/
def childAttempt (merged : ObjectOptions) (s : Schema) (val : Value) : Except ValidationError Value :=
  match kindOf s with
  | .obj => Schema.parse s val ⟨merged.allowUnknown, some true⟩
  | .arr => Schema.parse s val ⟨none, some true⟩
  | _ => Schema.parse s val noOpts

/- The full body of the per-key `try` block (lines 157-167): the
   Unknown-requires-presence check followed by the child validation. -/
def fieldStep (merged : ObjectOptions) (fields : Fields) (k : String) (s : Schema) :
    Except ValidationError Value :=
  if kindOf s == Kind.unk && !(hasKey fields k) then .error ⟨unknownKeyMsg k, none⟩
  else childAttempt merged s (getFieldD fields k)

/- Keys made of alphanumeric characters only; such keys cannot fabricate
   or disturb occurrences of the wrap-prefix texts inside messages. -/
def cleanKey (k : String) : Bool :=
  k.toList.all (fun c => c.isAlphanum)

mutual

/- The object/array-only schema fragment of claim C1: no union,
   intersection or literal nodes, no node-level `suppressPathErrMsg`, and
   alphanumeric declared keys. -/
def plainS : Schema → Bool
  | .string => true
  | .boolean => true
  | .number => true
  | .undef => true
  | .nul => true
  | .unknown => true
  | .literal _ => false
  | .object shape opts => !(opts.suppressPathErrMsg == some true) && plainShape shape
  | .array es => plainS es
  | .union _ _ => false
  | .intersection _ _ => false

def plainShape : Shape → Bool
  | .nil => true
  | .cons k s rest => cleanKey k && plainS s && plainShape rest

end

mutual

/- Values all of whose object keys are alphanumeric (object keys are the
   only parts of an input value that leak into error messages of the
   C1 fragment). -/
def cleanV : Value → Bool
  | .varr elems => cleanVL elems
  | .vobj fields => cleanF fields
  | _ => true

def cleanVL : ValueList → Bool
  | .nil => true
  | .cons v rest => cleanV v && cleanVL rest

def cleanF : Fields → Bool
  | .nil => true
  | .cons k v rest => cleanKey k && cleanV v && cleanF rest

end

mutual

/- Schemas containing no union node anywhere (claim C9). -/
def unionFree : Schema → Bool
  | .object shape _ => unionFreeShape shape
  | .array es => unionFree es
  | .union _ _ => false
  | .intersection l r => unionFree l && unionFree r
  | _ => true

def unionFreeShape : Shape → Bool
  | .nil => true
  | .cons _ s rest => unionFree s && unionFreeShape rest

end

mutual

/- Every object shape in the schema has pairwise distinct declared keys
   (automatically true of schemas built from JS object literals). -/
def nodupKeys : Schema → Bool
  | .object shape _ => decide (shapeKeys shape).Nodup && nodupKeysShape shape
  | .array es => nodupKeys es
  | .union l _ => nodupKeysList l
  | .intersection a b => nodupKeys a && nodupKeys b
  | _ => true

def nodupKeysShape : Shape → Bool
  | .nil => true
  | .cons _ s rest => nodupKeys s && nodupKeysShape rest

def nodupKeysList : SchemaList → Bool
  | .nil => true
  | .cons s rest => nodupKeys s && nodupKeysList rest

end

/- Number of positions of `s` at which the pattern `P` occurs (occurrences
   may overlap; `P` is always nonempty where this is used). -/
def countOcc (P : List Char) : List Char → Nat
  | [] => 0
  | c :: rest => (if P.isPrefixOf (c :: rest) then 1 else 0) + countOcc P rest

/- The human-readable wrap prefix of `ObjectType.parse` (line 172). -/
def objPrefixPat : List Char := "error parsing object at path: ".toList

/- The human-readable wrap prefix of `ArrayType.parse` (line 197). -/
def arrPrefixPat : List Char := "error at ".toList

/- Characters that can occur in a rendered path over clean keys. -/
def isPathChar (c : Char) : Bool :=
  c.isAlphanum || c == '.' || c == '[' || c == ']'

/- A path segment whose key (if any) is clean. -/
def segClean (seg : Seg) : Bool :=
  match seg with
  | .key k => cleanKey k
  | .idx _ => true

/- Sanity checks that the embedding computes by kernel reduction. -/
example : Schema.parse .string (.vstr "x") noOpts = .ok (.vstr "x") := rfl

example : Schema.parse .string (.vnum 3) noOpts =
    .error ⟨"expected type to be string but got number", none⟩ := rfl

example :
    Schema.parse (.object (.cons "a" (.object (.cons "b" .string .nil) ⟨none, none⟩) .nil) ⟨none, none⟩)
      (.vobj (.cons "a" (.vobj (.cons "b" (.vnum 1) .nil)) .nil)) noOpts =
    .error ⟨"error parsing object at path: \"a.b\" - expected type to be string but got number",
            some [Seg.key "a", Seg.key "b"]⟩ := rfl

example :
    Schema.parse (.array .number) (.varr (.cons (.vnum 1) (.cons (.vstr "x") .nil))) noOpts =
    .error ⟨"error at [1] - expected type to be number but got string", some [Seg.idx 1]⟩ := rfl

example :
    Schema.parse (.union (.cons .string (.cons .number .nil)) none) (.vbool true) noOpts =
    .error ⟨"No union satisfied:\n  expected type to be string but got boolean\n  expected type to be number but got boolean", none⟩ := rfl

example :
    Schema.parse (.object (.cons "a" .string .nil) ⟨none, none⟩)
      (.vobj (.cons "a" (.vstr "x") (.cons "b" (.vnum 1) .nil))) noOpts =
    .error ⟨"unexpected keys on object: [\"b\"]", none⟩ := rfl

/-- Claim C7 (confirmed): on successful array validation the node returns the
original input sequence unchanged; element-level validation results are never
substituted back into the sequence. -/
theorem c7_array_returns_original_input (es : Schema) (elems : ValueList)
    (ov : ObjectOptions) (r : Value)
    (h : Schema.parse (.array es) (.varr elems) ov = .ok r) :
    r = .varr elems := by
  simp only [Schema.parse] at h
  split at h
  · injection h with h
    exact h.symm
  · exact Except.noConfusion h

/-- Witness for C7: element validation of `{}` against `object({c: undefined})`
produces the transformed value `{c: undefined}`, yet the array returns the
original `[{}]` unchanged. -/
theorem c7_witness :
    (Schema.parse (.object (.cons "c" .undef .nil) ⟨none, none⟩) (.vobj .nil) ⟨none, some true⟩
      = .ok (.vobj (.cons "c" .vundef .nil)))
    ∧ (Schema.parse (.array (.object (.cons "c" .undef .nil) ⟨none, none⟩))
        (.varr (.cons (.vobj .nil) .nil)) noOpts
      = .ok (.varr (.cons (.vobj .nil) .nil)))
    ∧ (Value.varr (.cons (.vobj .nil) .nil)) = .varr (.cons (.vobj .nil) .nil) :=
  ⟨rfl, rfl,
    c7_array_returns_original_input (.object (.cons "c" .undef .nil) ⟨none, none⟩)
      (.cons (.vobj .nil) .nil) noOpts (.varr (.cons (.vobj .nil) .nil)) rfl⟩

/-- Claim C4 (confirmed): intersection validates the value against the left
node and then the right node, forcing `allowUnknown` for Object branches
(`interAttempt`); the first failing branch's error propagates unchanged with
the left branch evaluated first, and on double success the original,
unvalidated input value is returned. -/
theorem c4_intersection_semantics (l r : Schema) (v : Value) (ov : ObjectOptions) :
    (∀ e, interAttempt l v = .error e → Schema.parse (.intersection l r) v ov = .error e)
    ∧ (∀ a e, interAttempt l v = .ok a → interAttempt r v = .error e →
        Schema.parse (.intersection l r) v ov = .error e)
    ∧ (∀ a b, interAttempt l v = .ok a → interAttempt r v = .ok b →
        Schema.parse (.intersection l r) v ov = .ok v) := by
  unfold interAttempt
  refine ⟨?_, ?_, ?_⟩
  · intro e h
    simp only [Schema.parse]
    rw [h]
  · intro a e h1 h2
    simp only [Schema.parse]
    rw [h1, h2]
  · intro a b h1 h2
    simp only [Schema.parse]
    rw [h1, h2]

/-- Witness for C4: intersecting `object({a: string})` with `object({b: number})`
accepts `{a: "x", b: 1}` (each branch tolerating the other's key thanks to the
forced `allowUnknown`) and returns the original object unchanged. -/
theorem c4_witness :
    Schema.parse
      (.intersection (.object (.cons "a" .string .nil) ⟨none, none⟩)
        (.object (.cons "b" .number .nil) ⟨none, none⟩))
      (.vobj (.cons "a" (.vstr "x") (.cons "b" (.vnum 1) .nil))) noOpts
      = .ok (.vobj (.cons "a" (.vstr "x") (.cons "b" (.vnum 1) .nil))) :=
  (c4_intersection_semantics _ _ _ noOpts).2.2
    (.vobj (.cons "a" (.vstr "x") (.cons "b" (.vnum 1) .nil)))
    (.vobj (.cons "a" (.vstr "x") (.cons "b" (.vnum 1) .nil))) rfl rfl

/-- Claim C6 (confirmed): without an effective `allowUnknown`, an input with
keys absent from the shape fails immediately with one message listing all
extra keys and no path, regardless of the shape's children; with an effective
`allowUnknown` the extra-key check is skipped and validation proceeds to the
per-key loop. -/
theorem c6_extra_keys (shape : Shape) (opts ov : ObjectOptions) (fields : Fields) :
    (truthy (mergeOpts opts ov).allowUnknown = false →
      (keysOf fields).filter (fun x => !((shapeKeys shape).contains x)) ≠ [] →
      Schema.parse (.object shape opts) (.vobj fields) ov
        = .error ⟨"unexpected keys on object: "
            ++ jsonStringifyStrings
                ((keysOf fields).filter (fun x => !((shapeKeys shape).contains x))), none⟩)
    ∧ (truthy (mergeOpts opts ov).allowUnknown = true →
      Schema.parse (.object shape opts) (.vobj fields) ov
        = match runFields (shapeRunners shape) fields fields (mergeOpts opts ov) with
          | .ok out => .ok (.vobj out)
          | .error e => .error e) := by
  constructor
  · intro hau hne
    simp only [Schema.parse, hau]
    cases hfil : (keysOf fields).filter (fun x => !((shapeKeys shape).contains x)) with
    | nil => exact absurd hfil hne
    | cons x xs => simp [List.isEmpty]
  · intro hau
    simp [Schema.parse, hau]

/-- Witness for C6: `object({a: string})` rejects `{a: "x", b: 1}` with a
message listing `b` and no path; the same input with `allowUnknown: true`
passes and the result retains `b: 1`. -/
theorem c6_witness :
    (Schema.parse (.object (.cons "a" .string .nil) ⟨none, none⟩)
        (.vobj (.cons "a" (.vstr "x") (.cons "b" (.vnum 1) .nil))) noOpts
      = .error ⟨"unexpected keys on object: [\"b\"]", none⟩)
    ∧ (Schema.parse (.object (.cons "a" .string .nil) ⟨some true, none⟩)
        (.vobj (.cons "a" (.vstr "x") (.cons "b" (.vnum 1) .nil))) noOpts
      = .ok (.vobj (.cons "a" (.vstr "x") (.cons "b" (.vnum 1) .nil)))) :=
  ⟨(c6_extra_keys (.cons "a" .string .nil) ⟨none, none⟩ noOpts
      (.cons "a" (.vstr "x") (.cons "b" (.vnum 1) .nil))).1 rfl (by decide),
   (c6_extra_keys (.cons "a" .string .nil) ⟨some true, none⟩ noOpts
      (.cons "a" (.vstr "x") (.cons "b" (.vnum 1) .nil))).2 rfl⟩

/-- Claim C10 (confirmed): an object node's effective `allowUnknown` is
forwarded to declared Object children (together with prefix suppression),
but a declared Array child receives only prefix suppression, and array
elements are themselves validated with no `allowUnknown` at all — so objects
nested inside a declared array field never see the parent object's setting. -/
theorem c10_allowUnknown_propagation :
    (∀ (ish : Shape) (io : ObjectOptions) (fields : Fields),
      Schema.parse (.object (.cons "a" (.object ish io) .nil) ⟨some true, none⟩)
          (.vobj (.cons "a" (.vobj fields) .nil)) noOpts
        = match Schema.parse (.object ish io) (.vobj fields) ⟨some true, some true⟩ with
          | .ok w => .ok (.vobj (.cons "a" w .nil))
          | .error err => .error (wrapObjectErr false "a" err))
    ∧ (∀ (es : Schema) (elems : ValueList),
      Schema.parse (.object (.cons "a" (.array es) .nil) ⟨some true, none⟩)
          (.vobj (.cons "a" (.varr elems) .nil)) noOpts
        = match Schema.parse (.array es) (.varr elems) ⟨none, some true⟩ with
          | .ok w => .ok (.vobj (.cons "a" w .nil))
          | .error err => .error (wrapObjectErr false "a" err))
    ∧ (∀ (ish : Shape) (io : ObjectOptions) (e : Value) (b sup : Option Bool),
      Schema.parse (.array (.object ish io)) (.varr (.cons e .nil)) ⟨b, sup⟩
        = match Schema.parse (.object ish io) e ⟨none, some true⟩ with
          | .ok _ => .ok (.varr (.cons e .nil))
          | .error err => .error (wrapArrayErr (truthy sup) 0 err)) := by
  refine ⟨?_, ?_, ?_⟩
  · intro ish io fields
    rw [show Schema.parse (.object (.cons "a" (.object ish io) .nil) ⟨some true, none⟩)
          (.vobj (.cons "a" (.vobj fields) .nil)) noOpts
        = match (match Schema.parse (.object ish io) (.vobj fields) ⟨some true, some true⟩ with
                 | .ok w => runFields [] (Fields.cons "a" (.vobj fields) .nil)
                     (setKey (Fields.cons "a" (.vobj fields) .nil) "a" w) ⟨some true, none⟩
                 | .error err => Except.error (wrapObjectErr false "a" err)) with
          | .ok out => Except.ok (Value.vobj out)
          | .error e2 => Except.error e2 from rfl]
    cases hc : Schema.parse (.object ish io) (.vobj fields) ⟨some true, some true⟩ <;> rfl
  · intro es elems
    rw [show Schema.parse (.object (.cons "a" (.array es) .nil) ⟨some true, none⟩)
          (.vobj (.cons "a" (.varr elems) .nil)) noOpts
        = match (match Schema.parse (.array es) (.varr elems) ⟨none, some true⟩ with
                 | .ok w => runFields [] (Fields.cons "a" (.varr elems) .nil)
                     (setKey (Fields.cons "a" (.varr elems) .nil) "a" w) ⟨some true, none⟩
                 | .error err => Except.error (wrapObjectErr false "a" err)) with
          | .ok out => Except.ok (Value.vobj out)
          | .error e2 => Except.error e2 from rfl]
    cases hc : Schema.parse (.array es) (.varr elems) ⟨none, some true⟩ <;> rfl
  · intro ish io e b sup
    rw [show Schema.parse (.array (.object ish io)) (.varr (.cons e .nil)) ⟨b, sup⟩
        = match (match Schema.parse (.object ish io) e ⟨none, some true⟩ with
                 | .ok _ => runElems (fun w o => Schema.parse (.object ish io) w o) true
                     (truthy sup) .nil 1
                 | .error err => Except.error (wrapArrayErr (truthy sup) 0 err)) with
          | .ok _ => Except.ok (Value.varr (.cons e .nil))
          | .error e2 => Except.error e2 from rfl]
    cases hc : Schema.parse (.object ish io) e ⟨none, some true⟩ <;> rfl

/-- Inversion of the list view of a value sequence. -/
theorem ValueList.toList_eq_cons_values {elems : ValueList} {x : Value} {xs : List Value}
    (h : elems.toList = x :: xs) : ∃ rest, elems = .cons x rest ∧ rest.toList = xs := by
  cases elems with
  | nil => exact absurd h (by simp [ValueList.toList])
  | cons v rest =>
    simp only [ValueList.toList, List.cons.injEq] at h
    exact ⟨rest, by rw [h.1], h.2⟩

/-- If every element before position `pre.length` validates successfully and
the element there fails, the `forEach` loop of `ArrayType.parse` stops at that
index and wraps that failure. -/
theorem runElems_firstFail (es : Schema) (err : ValidationError) (suppress : Bool)
    (pre : List Value) :
    ∀ (elems : ValueList) (post : List Value) (e : Value) (idx : Nat),
      elems.toList = pre ++ e :: post →
      (∀ x ∈ pre, isOk (elemAttempt es x) = true) →
      elemAttempt es e = .error err →
      runElems (fun w o => Schema.parse es w o)
          (kindOf es == Kind.obj || kindOf es == Kind.arr) suppress elems idx
        = .error (wrapArrayErr suppress (idx + pre.length) err) := by
  induction pre with
  | nil =>
    intro elems post e idx hsplit _ hfail
    obtain ⟨rest, rfl, -⟩ := ValueList.toList_eq_cons_values (by simpa using hsplit)
    unfold elemAttempt at hfail
    simp only [runElems]
    rw [hfail]
    simp
  | cons x pre ih =>
    intro elems post e idx hsplit hpre hfail
    obtain ⟨rest, rfl, hrest⟩ := ValueList.toList_eq_cons_values (by simpa using hsplit)
    have hx := hpre x (by simp)
    cases ha : elemAttempt es x with
    | error ex => rw [ha] at hx; exact absurd hx (by simp [isOk])
    | ok w =>
      unfold elemAttempt at ha
      simp only [runElems]
      rw [ha]
      have := ih rest post e (idx + 1) hrest (fun y hy => hpre y (by simp [hy])) hfail
      rw [this]
      have harith : idx + 1 + pre.length = idx + (pre.length + 1) := by omega
      rw [harith]
      simp

/-- Claim C2 (corrected, amended): when an array element fails and
suppression was not requested of the array node, the node prepends the
element's index as a path segment and wraps the child message as
`error at <rendered path> - <child message>` — a wrapper text different from
the object node's `error parsing object at path: "<rendered path>" - ...`
form. -/
theorem c2_array_wrap (es : Schema) (elems : ValueList) (pre post : List Value)
    (e : Value) (err : ValidationError) (a sup : Option Bool)
    (hsplit : elems.toList = pre ++ e :: post)
    (hpre : ∀ x ∈ pre, isOk (elemAttempt es x) = true)
    (hfail : elemAttempt es e = .error err) :
    Schema.parse (.array es) (.varr elems) ⟨a, sup⟩
      = .error ⟨(if truthy sup then err.message
                 else "error at " ++ prettyPrintPath (Seg.idx pre.length :: err.path.getD [])
                   ++ " - " ++ err.message),
                some (Seg.idx pre.length :: err.path.getD [])⟩ := by
  have h := runElems_firstFail es err (truthy sup) pre elems post e 0 hsplit hpre hfail
  simp only [Schema.parse]
  rw [h]
  simp [wrapArrayErr]

/-- Counterexample for C2 as stated: the array wrap of a failing element is
`error at [0] - ...`, which is not the claimed `error parsing at path ...`
form, nor the object node's actual `error parsing object at path: "..."`
form applied to the same rendered path and child message. -/
theorem c2_counterexample :
    Schema.parse (.array .string) (.varr (.cons (.vnum 5) .nil)) noOpts
      = .error ⟨"error at [0] - expected type to be string but got number", some [Seg.idx 0]⟩
    ∧ "error at [0] - expected type to be string but got number"
        ≠ "error parsing at path [0] - expected type to be string but got number"
    ∧ "error at [0] - expected type to be string but got number"
        ≠ "error parsing object at path: \"[0]\" - expected type to be string but got number" :=
  ⟨rfl, by decide, by decide⟩

/-- Witness for the amended C2 at `array(string()).parse([5])`. -/
theorem c2_witness :
    Schema.parse (.array .string) (.varr (.cons (.vnum 5) .nil)) ⟨none, none⟩
      = .error ⟨"error at [0] - expected type to be string but got number", some [Seg.idx 0]⟩ :=
  c2_array_wrap .string (.cons (.vnum 5) .nil) [] [] (.vnum 5)
    ⟨"expected type to be string but got number", none⟩ none none rfl (by simp) rfl

/-- List-style induction for `SchemaList` (the mutual recursor is awkward to
use directly since only this member of the family is being traversed). -/
theorem SchemaList.inductionOnList {motive : SchemaList → Prop} (hnil : motive .nil)
    (hcons : ∀ s rest, motive rest → motive (.cons s rest)) : ∀ sl, motive sl
  | .nil => hnil
  | .cons s rest => hcons s rest (SchemaList.inductionOnList hnil hcons rest)

/-- List-style induction for `ValueList`. -/
theorem ValueList.inductionOnValues {motive : ValueList → Prop} (hnil : motive .nil)
    (hcons : ∀ v rest, motive rest → motive (.cons v rest)) : ∀ l, motive l
  | .nil => hnil
  | .cons v rest => hcons v rest (ValueList.inductionOnValues hnil hcons rest)

/-- List-style induction for `Fields`. -/
theorem Fields.inductionOnFields {motive : Fields → Prop} (hnil : motive .nil)
    (hcons : ∀ k v rest, motive rest → motive (.cons k v rest)) : ∀ l, motive l
  | .nil => hnil
  | .cons k v rest => hcons k v rest (Fields.inductionOnFields hnil hcons rest)

/-- List-style induction for `Shape`. -/
theorem Shape.inductionOnShape {motive : Shape → Prop} (hnil : motive .nil)
    (hcons : ∀ k s rest, motive rest → motive (.cons k s rest)) : ∀ l, motive l
  | .nil => hnil
  | .cons k s rest => hcons k s rest (Shape.inductionOnShape hnil hcons rest)

/-- Inversion of the list view of a schema list. -/
theorem SchemaList.toList_eq_cons_schemas {sl : SchemaList} {x : Schema} {xs : List Schema}
    (h : sl.toList = x :: xs) : ∃ rest, sl = .cons x rest ∧ rest.toList = xs := by
  cases sl with
  | nil => exact absurd h (by simp [SchemaList.toList])
  | cons s rest =>
    simp only [SchemaList.toList, List.cons.injEq] at h
    exact ⟨rest, by rw [h.1], h.2⟩

/-- The union candidate loop returns the first successful attempt. -/
theorem runUnion_ok (strict : Option Bool) (v : Value) (r : Value) (pre : List Schema) :
    ∀ (sl : SchemaList) (s : Schema) (post : List Schema) (errs : List String),
      sl.toList = pre ++ s :: post →
      (∀ x ∈ pre, isError (unionAttempt strict x v) = true) →
      unionAttempt strict s v = .ok r →
      runUnion (strict == some false) v errs (unionRunners sl) = .ok r := by
  induction pre with
  | nil =>
    intro sl s post errs hsplit _ hok
    obtain ⟨rest, rfl, -⟩ := SchemaList.toList_eq_cons_schemas (by simpa using hsplit)
    unfold unionAttempt at hok
    simp only [unionRunners, runUnion]
    rw [hok]
  | cons x pre ih =>
    intro sl s post errs hsplit hpre hok
    obtain ⟨rest, rfl, hrest⟩ := SchemaList.toList_eq_cons_schemas (by simpa using hsplit)
    have hx := hpre x (by simp)
    cases ha : unionAttempt strict x v with
    | ok w => rw [ha] at hx; exact absurd hx (by simp [isError])
    | error ex =>
      unfold unionAttempt at ha
      simp only [unionRunners, runUnion]
      rw [ha]
      exact ih rest s post (errs ++ [ex.message]) hrest
        (fun y hy => hpre y (by simp [hy])) hok

/-- When every candidate fails, the union aggregates all candidate messages
in order onto the accumulated list and fails without a path. -/
theorem runUnion_allFail (strict : Option Bool) (v : Value) :
    ∀ (sl : SchemaList) (errs : List String),
      (∀ x ∈ sl.toList, isError (unionAttempt strict x v) = true) →
      runUnion (strict == some false) v errs (unionRunners sl)
        = .error ⟨"No union satisfied:\n  " ++ String.intercalate "\n  "
            (errs ++ sl.toList.map (fun x => errMsg (unionAttempt strict x v))), none⟩ := by
  intro sl
  induction sl using SchemaList.inductionOnList with
  | hnil => intro errs _; simp [unionRunners, runUnion, SchemaList.toList]
  | hcons s rest ih =>
    intro errs h
    have hs := h s (by simp [SchemaList.toList])
    cases ha : unionAttempt strict s v with
    | ok w => rw [ha] at hs; exact absurd hs (by simp [isError])
    | error ex =>
      have ha' := ha
      unfold unionAttempt at ha'
      simp only [unionRunners, runUnion]
      rw [ha']
      refine (ih (errs ++ [ex.message])
        (fun y hy => h y (by simp [SchemaList.toList, hy]))).trans ?_
      simp [SchemaList.toList, ha, errMsg]

/-- Claim C3 (confirmed): the union tries its candidates in declared order,
forcing `allowUnknown` only for Object candidates when `strict` is explicitly
false (`unionAttempt`); the first successful candidate determines the result
with no later candidate consulted, and only if every candidate fails does the
union fail, with the pathless aggregate message joining every candidate's
failure message one per line. -/
theorem c3_union_semantics (schemas : SchemaList) (strict : Option Bool) (v : Value)
    (ov : ObjectOptions) :
    (∀ pre s post r, schemas.toList = pre ++ s :: post →
      (∀ x ∈ pre, isError (unionAttempt strict x v) = true) →
      unionAttempt strict s v = .ok r →
      Schema.parse (.union schemas strict) v ov = .ok r)
    ∧ ((∀ x ∈ schemas.toList, isError (unionAttempt strict x v) = true) →
      Schema.parse (.union schemas strict) v ov
        = .error ⟨"No union satisfied:\n  "
            ++ String.intercalate "\n  "
                (schemas.toList.map (fun x => errMsg (unionAttempt strict x v))), none⟩) := by
  constructor
  · intro pre s post r hsplit hpre hok
    simp only [Schema.parse]
    exact runUnion_ok strict v r pre schemas s post [] hsplit hpre hok
  · intro hall
    simp only [Schema.parse]
    simpa using runUnion_allFail strict v schemas [] hall

/-- Witness for C3: `union([string, number])` accepts `5` through its second
candidate after the first fails, and rejects `true` with the aggregate
two-line message containing both branch failures. -/
theorem c3_witness :
    (Schema.parse (.union (.cons .string (.cons .number .nil)) none) (.vnum 5) noOpts
      = .ok (.vnum 5))
    ∧ (Schema.parse (.union (.cons .string (.cons .number .nil)) none) (.vbool true) noOpts
      = .error ⟨"No union satisfied:\n  expected type to be string but got boolean\n  expected type to be number but got boolean", none⟩) :=
  ⟨(c3_union_semantics (.cons .string (.cons .number .nil)) none (.vnum 5) noOpts).1
      [.string] .number [] (.vnum 5) rfl
      (by intro x hx; simp at hx; subst hx; decide) rfl,
   (c3_union_semantics (.cons .string (.cons .number .nil)) none (.vbool true) noOpts).2
      (by
        intro x hx
        simp [SchemaList.toList] at hx
        rcases hx with rfl | rfl <;> decide)⟩

/-- Reading back the key just written. -/
theorem getField_setKey_self (acc : Fields) (k : String) (w : Value) :
    getField (setKey acc k w) k = some w := by
  induction acc using Fields.inductionOnFields with
  | hnil => simp [setKey, getField]
  | hcons k0 v0 rest ih =>
    by_cases hk : k0 = k
    · subst hk; simp [setKey, getField]
    · simp only [setKey, getField]
      rw [if_neg (by simpa using hk)]
      simp only [getField]
      rw [if_neg (by simpa using hk)]
      exact ih

/-- Writing one key leaves every other key's value unchanged. -/
theorem getField_setKey_ne (acc : Fields) (k k' : String) (w : Value) (h : k ≠ k') :
    getField (setKey acc k w) k' = getField acc k' := by
  induction acc using Fields.inductionOnFields with
  | hnil => simp [setKey, getField, h]
  | hcons k0 v0 rest ih =>
    by_cases hk : k0 = k
    · subst hk
      simp only [setKey]
      rw [if_pos (by simp)]
      simp [getField, h]
    · simp only [setKey]
      rw [if_neg (by simpa using hk)]
      simp only [getField]
      by_cases hk' : k0 = k'
      · simp [hk']
      · rw [if_neg (by simpa using hk'), if_neg (by simpa using hk')]
        exact ih

/-- Rewriting a key to the value it already holds is the identity. -/
theorem setKey_same (acc : Fields) (k : String) (w : Value)
    (h : getField acc k = some w) : setKey acc k w = acc := by
  induction acc using Fields.inductionOnFields with
  | hnil => simp [getField] at h
  | hcons k0 v0 rest ih =>
    by_cases hk : k0 = k
    · subst hk
      simp only [getField] at h
      rw [if_pos (by simp)] at h
      injection h with h
      simp [setKey, h]
    · simp only [getField] at h
      rw [if_neg (by simpa using hk)] at h
      simp only [setKey]
      rw [if_neg (by simpa using hk)]
      rw [ih h]

/-- Bridge between the `Bool` key test and list membership. -/
theorem contains_true_iff (l : List String) (a : String) :
    l.contains a = true ↔ a ∈ l := List.elem_iff

theorem contains_false_iff (l : List String) (a : String) :
    l.contains a = false ↔ a ∉ l := by
  rw [← contains_true_iff]
  cases h : l.contains a <;> simp

/-- Writing a key adds at most that key to the own-key set. -/
theorem mem_keysOf_setKey (acc : Fields) (k k' : String) (w : Value)
    (h : k' ∈ keysOf (setKey acc k w)) : k' ∈ keysOf acc ∨ k' = k := by
  induction acc using Fields.inductionOnFields with
  | hnil =>
    simp [setKey, keysOf] at h
    exact Or.inr h
  | hcons k0 v0 rest ih =>
    by_cases hk : k0 = k
    · subst hk
      simp only [setKey] at h
      rw [if_pos (by simp)] at h
      simp only [keysOf, List.mem_cons] at h ⊢
      rcases h with h | h
      · exact Or.inl (Or.inl h)
      · exact Or.inl (Or.inr h)
    · simp only [setKey] at h
      rw [if_neg (by simpa using hk)] at h
      simp only [keysOf, List.mem_cons] at h ⊢
      rcases h with h | h
      · exact Or.inl (Or.inl h)
      · rcases ih h with h2 | h2
        · exact Or.inl (Or.inr h2)
        · exact Or.inr h2

/-- One step of the per-key loop, phrased through `fieldStep`. -/
theorem runFields_cons (k : String) (s : Schema) (rest : Shape) (fields acc : Fields)
    (merged : ObjectOptions) :
    runFields (shapeRunners (.cons k s rest)) fields acc merged
      = match fieldStep merged fields k s with
        | .ok w => runFields (shapeRunners rest) fields (setKey acc k w) merged
        | .error err => .error (wrapObjectErr (truthy merged.suppressPathErrMsg) k err) :=
  rfl

/-- Keys outside the declared shape pass through the per-key loop untouched. -/
theorem runFields_ok_frame (fields : Fields) (merged : ObjectOptions) :
    ∀ (shape : Shape) (acc out : Fields),
      runFields (shapeRunners shape) fields acc merged = .ok out →
      ∀ k, (shapeKeys shape).contains k = false → getField out k = getField acc k := by
  intro shape
  induction shape using Shape.inductionOnShape with
  | hnil =>
    intro acc out h k _
    simp only [shapeRunners, runFields] at h
    injection h with h
    rw [h]
  | hcons k0 s rest ih =>
    intro acc out h k hk
    rw [runFields_cons] at h
    have hk' : (shapeKeys rest).contains k = false ∧ ¬(k0 = k) := by
      simp only [shapeKeys] at hk
      rw [contains_false_iff] at hk
      simp only [List.mem_cons, not_or] at hk
      exact ⟨(contains_false_iff _ _).mpr hk.2, fun hc => hk.1 hc.symm⟩
    cases hstep : fieldStep merged fields k0 s with
    | error err => rw [hstep] at h; exact Except.noConfusion h
    | ok w =>
      rw [hstep] at h
      rw [ih (setKey acc k0 w) out h k hk'.1]
      exact getField_setKey_ne acc k0 k w hk'.2

/-- On a successful run with no duplicate declared keys, each declared key of
the output holds exactly the value produced by its own field step. -/
theorem runFields_ok_get (fields : Fields) (merged : ObjectOptions) :
    ∀ (shape : Shape) (acc out : Fields),
      (shapeKeys shape).Nodup →
      runFields (shapeRunners shape) fields acc merged = .ok out →
      ∀ k s, shapeGet shape k = some s →
        ∃ w, fieldStep merged fields k s = .ok w ∧ getField out k = some w := by
  intro shape
  induction shape using Shape.inductionOnShape with
  | hnil => intro acc out _ _ k s hg; simp [shapeGet] at hg
  | hcons k0 s0 rest ih =>
    intro acc out hnodup h k s hg
    rw [runFields_cons] at h
    cases hstep : fieldStep merged fields k0 s0 with
    | error err => rw [hstep] at h; exact Except.noConfusion h
    | ok w0 =>
      rw [hstep] at h
      simp only [shapeKeys, List.nodup_cons] at hnodup
      simp only [shapeGet] at hg
      by_cases hkk : k0 = k
      · subst hkk
        rw [if_pos (by simp)] at hg
        injection hg with hg
        subst hg
        refine ⟨w0, hstep, ?_⟩
        have : getField out k0 = getField (setKey acc k0 w0) k0 :=
          runFields_ok_frame fields merged rest (setKey acc k0 w0) out h k0
            ((contains_false_iff _ _).mpr hnodup.1)
        rw [this, getField_setKey_self]
      · rw [if_neg (by simpa using hkk)] at hg
        exact ih (setKey acc k0 w0) out hnodup.2 h k s hg

/-- Claim C5 (confirmed): a successful object validation returns a shallow
copy of the input in which every declared key holds the result of that key's
own field step, and every other field of the input keeps its original value.
The duplicate-free hypothesis on the declared keys mirrors JS object-literal
shapes, which cannot repeat a key. -/
theorem c5_object_clone (shape : Shape) (opts ov : ObjectOptions) (fields : Fields)
    (r : Value) (hnodup : (shapeKeys shape).Nodup)
    (h : Schema.parse (.object shape opts) (.vobj fields) ov = .ok r) :
    ∃ out, r = .vobj out
      ∧ (∀ k, (shapeKeys shape).contains k = false → getField out k = getField fields k)
      ∧ (∀ k s, shapeGet shape k = some s →
          ∃ w, fieldStep (mergeOpts opts ov) fields k s = .ok w ∧ getField out k = some w) := by
  simp only [Schema.parse] at h
  have inv : ∃ out, runFields (shapeRunners shape) fields fields (mergeOpts opts ov) = .ok out
      ∧ r = .vobj out := by
    split at h
    · cases hrf : runFields (shapeRunners shape) fields fields (mergeOpts opts ov) with
      | ok out => rw [hrf] at h; injection h with h; exact ⟨out, rfl, h.symm⟩
      | error e => rw [hrf] at h; exact Except.noConfusion h
    · split at h
      · cases hrf : runFields (shapeRunners shape) fields fields (mergeOpts opts ov) with
        | ok out => rw [hrf] at h; injection h with h; exact ⟨out, rfl, h.symm⟩
        | error e => rw [hrf] at h; exact Except.noConfusion h
      · exact Except.noConfusion h
  obtain ⟨out, hrf, rfl⟩ := inv
  exact ⟨out, rfl,
    fun k hk => runFields_ok_frame fields (mergeOpts opts ov) shape fields out hrf k hk,
    fun k s hg => runFields_ok_get fields (mergeOpts opts ov) shape fields out hnodup hrf k s hg⟩

/-- Witness for C5: with `allowUnknown`, `object({a: string})` on
`{a: "x", c: 7}` succeeds; the declared key `a` holds its validation result
and the unknown key `c` keeps its original value. -/
theorem c5_witness :
    ∃ out, (Value.vobj (.cons "a" (.vstr "x") (.cons "c" (.vnum 7) .nil))) = .vobj out
      ∧ (∀ k, (shapeKeys (Shape.cons "a" .string .nil)).contains k = false →
          getField out k = getField (Fields.cons "a" (.vstr "x") (.cons "c" (.vnum 7) .nil)) k)
      ∧ (∀ k s, shapeGet (Shape.cons "a" .string .nil) k = some s →
          ∃ w, fieldStep (mergeOpts ⟨some true, none⟩ noOpts)
              (Fields.cons "a" (.vstr "x") (.cons "c" (.vnum 7) .nil)) k s = .ok w
            ∧ getField out k = some w) := by
  exact c5_object_clone (.cons "a" .string .nil) ⟨some true, none⟩ noOpts
    (.cons "a" (.vstr "x") (.cons "c" (.vnum 7) .nil))
    (.vobj (.cons "a" (.vstr "x") (.cons "c" (.vnum 7) .nil))) (by decide) rfl

/-- Inversion of the list view of a shape. -/
theorem Shape.toList_eq_cons_entries {shape : Shape} {k : String} {s : Schema}
    {xs : List (String × Schema)} (h : shape.toList = (k, s) :: xs) :
    ∃ rest, shape = .cons k s rest ∧ rest.toList = xs := by
  cases shape with
  | nil => exact absurd h (by simp [Shape.toList])
  | cons k0 s0 rest =>
    simp only [Shape.toList, List.cons.injEq, Prod.mk.injEq] at h
    exact ⟨rest, by rw [h.1.1, h.1.2], h.2⟩

/-- If every declared key before some position steps successfully and the key
there fails, the per-key loop stops at that key and wraps its failure. -/
theorem runFields_firstFail (fields : Fields) (merged : ObjectOptions)
    (err : ValidationError) (pre : List (String × Schema)) :
    ∀ (shape : Shape) (k : String) (s : Schema) (post : List (String × Schema)) (acc : Fields),
      shape.toList = pre ++ (k, s) :: post →
      (∀ p ∈ pre, isOk (fieldStep merged fields p.1 p.2) = true) →
      fieldStep merged fields k s = .error err →
      runFields (shapeRunners shape) fields acc merged
        = .error (wrapObjectErr (truthy merged.suppressPathErrMsg) k err) := by
  induction pre with
  | nil =>
    intro shape k s post acc hsplit _ hfail
    obtain ⟨rest, rfl, -⟩ := Shape.toList_eq_cons_entries (by simpa using hsplit)
    rw [runFields_cons, hfail]
  | cons p pre ih =>
    intro shape k s post acc hsplit hpre hfail
    obtain ⟨rest, rfl, hrest⟩ := Shape.toList_eq_cons_entries (show shape.toList = (p.1, p.2) :: (pre ++ (k, s) :: post) by simpa using hsplit)
    have hp := hpre p (by simp)
    cases hstep : fieldStep merged fields p.1 p.2 with
    | error ex => rw [hstep] at hp; exact absurd hp (by simp [isOk])
    | ok w =>
      rw [runFields_cons, hstep]
      exact ih rest k s post (setKey acc p.1 w) hrest
        (fun q hq => hpre q (by simp [hq])) hfail

/-- When the extra-key check passes (an effective `allowUnknown`, or no
illegal keys), object validation proceeds to the per-key loop. -/
theorem parse_object_proceed (shape : Shape) (opts ov : ObjectOptions) (fields : Fields)
    (hcheck : truthy (mergeOpts opts ov).allowUnknown = true
      ∨ (keysOf fields).filter (fun x => !((shapeKeys shape).contains x)) = []) :
    Schema.parse (.object shape opts) (.vobj fields) ov
      = match runFields (shapeRunners shape) fields fields (mergeOpts opts ov) with
        | .ok out => .ok (.vobj out)
        | .error e => .error e := by
  simp only [Schema.parse]
  rcases hcheck with hau | hil
  · rw [hau, if_pos rfl]
  · cases hau : truthy (mergeOpts opts ov).allowUnknown
    · rw [if_neg (by simp), hil]
      simp only [List.isEmpty_nil, if_true]
    · rw [if_pos rfl]

/-- Claim C8 (confirmed): when the per-key loop reaches a declared key whose
child node is Unknown and the input has no own field for that key, validation
fails with the required-key-missing error naming that key (wrapped with the
single-segment path unless suppression is in effect); the Unknown-typed field
is implicitly required even though the Unknown node accepts any value. -/
theorem c8_unknown_required (shape : Shape) (opts ov : ObjectOptions) (fields : Fields)
    (k : String) (pre post : List (String × Schema))
    (hsplit : shape.toList = pre ++ (k, Schema.unknown) :: post)
    (hpre : ∀ p ∈ pre, isOk (fieldStep (mergeOpts opts ov) fields p.1 p.2) = true)
    (hmissing : hasKey fields k = false)
    (hcheck : truthy (mergeOpts opts ov).allowUnknown = true
      ∨ (keysOf fields).filter (fun x => !((shapeKeys shape).contains x)) = []) :
    Schema.parse (.object shape opts) (.vobj fields) ov
      = .error ⟨(if truthy (mergeOpts opts ov).suppressPathErrMsg then unknownKeyMsg k
                 else "error parsing object at path: \"" ++ k ++ "\" - " ++ unknownKeyMsg k),
                some [Seg.key k]⟩ := by
  have hstep : fieldStep (mergeOpts opts ov) fields k .unknown
      = .error ⟨unknownKeyMsg k, none⟩ := by
    simp only [fieldStep, kindOf, hmissing]
    rfl
  have hrf := runFields_firstFail fields (mergeOpts opts ov) ⟨unknownKeyMsg k, none⟩
    pre shape k .unknown post fields hsplit hpre hstep
  have hwrap : wrapObjectErr (truthy (mergeOpts opts ov).suppressPathErrMsg) k
      ⟨unknownKeyMsg k, none⟩
      = ⟨(if truthy (mergeOpts opts ov).suppressPathErrMsg then unknownKeyMsg k
          else "error parsing object at path: \"" ++ k ++ "\" - " ++ unknownKeyMsg k),
         some [Seg.key k]⟩ := rfl
  rw [parse_object_proceed shape opts ov fields hcheck, hrf, hwrap]

/-- Witness for C8: `object({u: unknown})` rejects `{}` with the
required-key-missing error for `u`, wrapped at the top level. -/
theorem c8_witness :
    Schema.parse (.object (.cons "u" .unknown .nil) ⟨none, none⟩) (.vobj .nil) noOpts
      = .error ⟨"error parsing object at path: \"u\" - expected key \"u\" of unknown type to be present on object",
                some [Seg.key "u"]⟩ :=
  c8_unknown_required (.cons "u" .unknown .nil) ⟨none, none⟩ noOpts .nil "u" [] []
    rfl (by simp) rfl (Or.inr rfl)

/-- A present key reads back as some value. -/
theorem mem_getField_some (fields : Fields) (k : String) :
    k ∈ keysOf fields → ∃ w, getField fields k = some w := by
  induction fields using Fields.inductionOnFields with
  | hnil => intro h; simp [keysOf] at h
  | hcons k0 v0 rest ih =>
    intro h
    simp only [keysOf, List.mem_cons] at h
    by_cases hk : k0 = k
    · subst hk
      exact ⟨v0, by simp [getField]⟩
    · rcases h with h | h
      · exact absurd h.symm hk
      · obtain ⟨w, hw⟩ := ih h
        refine ⟨w, ?_⟩
        simp only [getField]
        rw [if_neg (by simpa using hk)]
        exact hw

/-- A readable key is a present key. -/
theorem getField_some_mem (fields : Fields) (k : String) (w : Value)
    (h : getField fields k = some w) : k ∈ keysOf fields := by
  induction fields using Fields.inductionOnFields with
  | hnil => simp [getField] at h
  | hcons k0 v0 rest ih =>
    simp only [getField] at h
    by_cases hk : k0 = k
    · subst hk; simp [keysOf]
    · rw [if_neg (by simpa using hk)] at h
      simp only [keysOf, List.mem_cons]
      exact Or.inr (ih h)

/-- A declared key is among the shape keys. -/
theorem shapeGet_some_mem (shape : Shape) (k : String) (s : Schema)
    (h : shapeGet shape k = some s) : k ∈ shapeKeys shape := by
  induction shape using Shape.inductionOnShape with
  | hnil => simp [shapeGet] at h
  | hcons k0 s0 rest ih =>
    simp only [shapeGet] at h
    by_cases hk : k0 = k
    · subst hk; simp [shapeKeys]
    · rw [if_neg (by simpa using hk)] at h
      simp only [shapeKeys, List.mem_cons]
      exact Or.inr (ih h)

/-- A declared child schema is smaller than its shape. -/
theorem shapeGet_sizeOf (shape : Shape) (k : String) (s : Schema)
    (h : shapeGet shape k = some s) : sizeOf s < sizeOf shape := by
  induction shape using Shape.inductionOnShape with
  | hnil => simp [shapeGet] at h
  | hcons k0 s0 rest ih =>
    simp only [shapeGet] at h
    by_cases hk : k0 = k
    · rw [if_pos (by simpa using hk)] at h
      injection h with h
      subst h
      simp
      omega
    · rw [if_neg (by simpa using hk)] at h
      have := ih h
      simp
      omega

/-- Union-freeness descends to declared children. -/
theorem shapeGet_unionFree (shape : Shape) (k : String) (s : Schema)
    (hsh : unionFreeShape shape = true) (h : shapeGet shape k = some s) :
    unionFree s = true := by
  induction shape using Shape.inductionOnShape with
  | hnil => simp [shapeGet] at h
  | hcons k0 s0 rest ih =>
    simp only [shapeGet] at h
    simp only [unionFreeShape, Bool.and_eq_true] at hsh
    by_cases hk : k0 = k
    · rw [if_pos (by simpa using hk)] at h
      injection h with h
      subst h
      exact hsh.1
    · rw [if_neg (by simpa using hk)] at h
      exact ih hsh.2 h

/-- Duplicate-freeness descends to declared children. -/
theorem shapeGet_nodupKeys (shape : Shape) (k : String) (s : Schema)
    (hsh : nodupKeysShape shape = true) (h : shapeGet shape k = some s) :
    nodupKeys s = true := by
  induction shape using Shape.inductionOnShape with
  | hnil => simp [shapeGet] at h
  | hcons k0 s0 rest ih =>
    simp only [shapeGet] at h
    simp only [nodupKeysShape, Bool.and_eq_true] at hsh
    by_cases hk : k0 = k
    · rw [if_pos (by simpa using hk)] at h
      injection h with h
      subst h
      exact hsh.1
    · rw [if_neg (by simpa using hk)] at h
      exact ih hsh.2 h

/-- A successful field step is a successful child validation (the
Unknown-presence guard did not fire). -/
theorem fieldStep_ok_inv (merged : ObjectOptions) (fields : Fields) (k : String)
    (s : Schema) (w : Value) (h : fieldStep merged fields k s = .ok w) :
    childAttempt merged s (getFieldD fields k) = .ok w := by
  unfold fieldStep at h
  by_cases hc : (kindOf s == Kind.unk && !(hasKey fields k)) = true
  · rw [if_pos hc] at h
    exact Except.noConfusion h
  · rw [if_neg hc] at h
    exact h

/-- Successful object validation decomposes into a passed extra-key check and
a successful per-key loop. -/
theorem parse_object_ok_inv (shape : Shape) (opts ov : ObjectOptions) (fields : Fields)
    (r : Value) (h : Schema.parse (.object shape opts) (.vobj fields) ov = .ok r) :
    (truthy (mergeOpts opts ov).allowUnknown = true
      ∨ (keysOf fields).filter (fun x => !((shapeKeys shape).contains x)) = [])
    ∧ ∃ out, runFields (shapeRunners shape) fields fields (mergeOpts opts ov) = .ok out
        ∧ r = .vobj out := by
  simp only [Schema.parse] at h
  by_cases hau : truthy (mergeOpts opts ov).allowUnknown = true
  · rw [if_pos hau] at h
    refine ⟨Or.inl hau, ?_⟩
    cases hrf : runFields (shapeRunners shape) fields fields (mergeOpts opts ov) with
    | ok out => rw [hrf] at h; injection h with h; exact ⟨out, rfl, h.symm⟩
    | error e => rw [hrf] at h; exact Except.noConfusion h
  · rw [if_neg hau] at h
    cases hfil : (keysOf fields).filter (fun x => !((shapeKeys shape).contains x)) with
    | cons x xs =>
      rw [hfil] at h
      simp only [List.isEmpty_cons] at h
      rw [if_neg (by simp)] at h
      exact Except.noConfusion h
    | nil =>
      rw [hfil] at h
      simp only [List.isEmpty_nil, if_true] at h
      refine ⟨Or.inr rfl, ?_⟩
      cases hrf : runFields (shapeRunners shape) fields fields (mergeOpts opts ov) with
      | ok out => rw [hrf] at h; injection h with h; exact ⟨out, rfl, h.symm⟩
      | error e => rw [hrf] at h; exact Except.noConfusion h

/-- If every declared key is present and its child validation fixes the stored
value, the per-key loop leaves the object unchanged and succeeds. -/
theorem runFields_steady (merged : ObjectOptions) :
    ∀ (shape : Shape) (fields : Fields),
      (shapeKeys shape).Nodup →
      (∀ k s, shapeGet shape k = some s →
        hasKey fields k = true
          ∧ childAttempt merged s (getFieldD fields k) = .ok (getFieldD fields k)) →
      runFields (shapeRunners shape) fields fields merged = .ok fields := by
  intro shape
  induction shape using Shape.inductionOnShape with
  | hnil => intro fields _ _; rfl
  | hcons k0 s0 rest ih =>
    intro fields hnodup hsteps
    have h0 := hsteps k0 s0 (by simp [shapeGet])
    have hstep : fieldStep merged fields k0 s0
        = childAttempt merged s0 (getFieldD fields k0) := by
      unfold fieldStep
      rw [if_neg (by simp [h0.1])]
    rw [runFields_cons, hstep, h0.2]
    have hset : setKey fields k0 (getFieldD fields k0) = fields := by
      obtain ⟨w, hw⟩ := mem_getField_some fields k0 ((contains_true_iff _ _).mp h0.1)
      apply setKey_same
      rw [hw]
      simp [getFieldD, hw]
    show runFields (shapeRunners rest) fields (setKey fields k0 (getFieldD fields k0)) merged
      = Except.ok fields
    rw [hset]
    simp only [shapeKeys, List.nodup_cons] at hnodup
    refine ih fields hnodup.2 ?_
    intro k s hg
    have hkmem := shapeGet_some_mem rest k s hg
    have hk0 : ¬(k0 = k) := fun hc => hnodup.1 (hc ▸ hkmem)
    refine hsteps k s ?_
    simp only [shapeGet]
    rw [if_neg (by simpa using hk0)]
    exact hg

/-- Counterexample for C9 as stated: re-validating the result of a union can
take a different branch and yield a different value.  On `{}` the first
candidate (requiring an own `b` of unknown type) fails and the second
produces `{b: undefined}`; re-validating that result makes the first
candidate succeed and return `{b: undefined, c: undefined}`. -/
theorem c9_counterexample :
    (Schema.parse
        (.union (.cons (.object (.cons "b" .unknown (.cons "c" .undef .nil)) ⟨none, none⟩)
          (.cons (.object (.cons "b" .undef .nil) ⟨none, none⟩) .nil)) none)
        (.vobj .nil) noOpts
      = .ok (.vobj (.cons "b" .vundef .nil)))
    ∧ (Schema.parse
        (.union (.cons (.object (.cons "b" .unknown (.cons "c" .undef .nil)) ⟨none, none⟩)
          (.cons (.object (.cons "b" .undef .nil) ⟨none, none⟩) .nil)) none)
        (.vobj (.cons "b" .vundef .nil)) noOpts
      = .ok (.vobj (.cons "b" .vundef (.cons "c" .vundef .nil))))
    ∧ Value.vobj (.cons "b" .vundef (.cons "c" .vundef .nil))
        ≠ .vobj (.cons "b" .vundef .nil) :=
  ⟨rfl, rfl, by simp⟩

/-- Bounded-size idempotence for union-free, duplicate-free schemas. -/
theorem c9_aux :
    ∀ (n : Nat) (s : Schema), sizeOf s ≤ n → unionFree s = true → nodupKeys s = true →
    ∀ (v r : Value) (ov : ObjectOptions),
      Schema.parse s v ov = .ok r → Schema.parse s r ov = .ok r := by
  intro n
  induction n with
  | zero =>
    intro s hs
    exfalso
    cases s <;> simp at hs
  | succ n ih =>
    intro s hs hu hn v r ov h
    cases s with
    | string =>
      cases v <;> simp only [Schema.parse] at h <;>
        first
          | exact Except.noConfusion h
          | (injection h with h2; subst h2; rfl)
    | boolean =>
      cases v <;> simp only [Schema.parse] at h <;>
        first
          | exact Except.noConfusion h
          | (injection h with h2; subst h2; rfl)
    | number =>
      cases v <;> simp only [Schema.parse] at h <;>
        first
          | exact Except.noConfusion h
          | (injection h with h2; subst h2; rfl)
    | undef =>
      cases v <;> simp only [Schema.parse] at h <;>
        first
          | exact Except.noConfusion h
          | (injection h with h2; subst h2; rfl)
    | nul =>
      cases v <;> simp only [Schema.parse] at h <;>
        first
          | exact Except.noConfusion h
          | (injection h with h2; subst h2; rfl)
    | unknown =>
      simp only [Schema.parse] at h
      injection h with h2
      subst h2
      rfl
    | literal l =>
      simp only [Schema.parse] at h ⊢
      by_cases hl : litEq l v = true
      · rw [if_pos hl] at h
        injection h with h2
        subst h2
        rw [if_pos hl]
      · rw [if_neg hl] at h
        exact Except.noConfusion h
    | union schemas strict => simp [unionFree] at hu
    | intersection l0 r0 =>
      have hr : r = v := by
        simp only [Schema.parse] at h
        cases hL : (if kindOf l0 == Kind.obj then Schema.parse l0 v ⟨some true, none⟩
            else Schema.parse l0 v noOpts) with
        | error e => rw [hL] at h; exact Except.noConfusion h
        | ok a =>
          rw [hL] at h
          cases hR : (if kindOf r0 == Kind.obj then Schema.parse r0 v ⟨some true, none⟩
              else Schema.parse r0 v noOpts) with
          | error e => rw [hR] at h; exact Except.noConfusion h
          | ok b =>
            rw [hR] at h
            injection h with h2
            exact h2.symm
      subst hr
      exact h
    | array es =>
      cases v with
      | varr elems =>
        have hr : r = Value.varr elems := by
          simp only [Schema.parse] at h
          cases hre : runElems (fun w o => Schema.parse es w o)
              (kindOf es == Kind.obj || kindOf es == Kind.arr)
              (truthy ov.suppressPathErrMsg) elems 0 with
          | error e => rw [hre] at h; exact Except.noConfusion h
          | ok u =>
            rw [hre] at h
            injection h with h2
            exact h2.symm
        subst hr
        exact h
      | vstr s0 => simp only [Schema.parse] at h; exact Except.noConfusion h
      | vnum n0 => simp only [Schema.parse] at h; exact Except.noConfusion h
      | vbool b0 => simp only [Schema.parse] at h; exact Except.noConfusion h
      | vundef => simp only [Schema.parse] at h; exact Except.noConfusion h
      | vnull => simp only [Schema.parse] at h; exact Except.noConfusion h
      | vobj f0 => simp only [Schema.parse] at h; exact Except.noConfusion h
    | object shape opts =>
      cases v with
      | vstr s0 => simp only [Schema.parse] at h; exact Except.noConfusion h
      | vnum n0 => simp only [Schema.parse] at h; exact Except.noConfusion h
      | vbool b0 => simp only [Schema.parse] at h; exact Except.noConfusion h
      | vundef => simp only [Schema.parse] at h; exact Except.noConfusion h
      | vnull => simp only [Schema.parse] at h; exact Except.noConfusion h
      | varr el0 => simp only [Schema.parse] at h; exact Except.noConfusion h
      | vobj fields =>
        have hnd : (shapeKeys shape).Nodup := by
          simp only [nodupKeys, Bool.and_eq_true, decide_eq_true_eq] at hn
          exact hn.1
        have hndShape : nodupKeysShape shape = true := by
          simp only [nodupKeys, Bool.and_eq_true, decide_eq_true_eq] at hn
          exact hn.2
        have huShape : unionFreeShape shape = true := by
          simpa [unionFree] using hu
        obtain ⟨hcheck, out, hrf, rfl⟩ := parse_object_ok_inv shape opts ov fields r h
        have hcheck2 : truthy (mergeOpts opts ov).allowUnknown = true
            ∨ (keysOf out).filter (fun x => !((shapeKeys shape).contains x)) = [] := by
          rcases hcheck with hau | hfil
          · exact Or.inl hau
          · refine Or.inr (List.filter_eq_nil_iff.mpr ?_)
            intro k hkmem hkpred
            have hkc : (shapeKeys shape).contains k = false := by
              cases hc : (shapeKeys shape).contains k
              · rfl
              · rw [hc] at hkpred; simp at hkpred
            have hfr := runFields_ok_frame fields (mergeOpts opts ov) shape fields out hrf k hkc
            obtain ⟨w, hw⟩ := mem_getField_some out k hkmem
            have hmemf : k ∈ keysOf fields :=
              getField_some_mem fields k w (by rw [← hfr]; exact hw)
            have := List.filter_eq_nil_iff.mp hfil k hmemf
            rw [hkc] at this
            simp at this
        rw [parse_object_proceed shape opts ov out hcheck2]
        have hsteady : runFields (shapeRunners shape) out out (mergeOpts opts ov)
            = .ok out := by
          refine runFields_steady (mergeOpts opts ov) shape out hnd ?_
          intro k s hg
          obtain ⟨w, hstep, hout⟩ :=
            runFields_ok_get fields (mergeOpts opts ov) shape fields out hnd hrf k s hg
          have hchild := fieldStep_ok_inv (mergeOpts opts ov) fields k s w hstep
          have hkmem : k ∈ keysOf out := getField_some_mem out k w hout
          have hgfd : getFieldD out k = w := by simp [getFieldD, hout]
          have hsz : sizeOf s ≤ n := by
            have h1 := shapeGet_sizeOf shape k s hg
            have h2 : sizeOf shape < sizeOf (Schema.object shape opts) := by simp; omega
            omega
          have hus := shapeGet_unionFree shape k s huShape hg
          have hns := shapeGet_nodupKeys shape k s hndShape hg
          refine ⟨(contains_true_iff _ _).mpr hkmem, ?_⟩
          rw [hgfd]
          cases hk0 : kindOf s with
          | obj =>
            simp only [childAttempt, hk0] at hchild ⊢
            exact ih s hsz hus hns (getFieldD fields k) w _ hchild
          | arr =>
            simp only [childAttempt, hk0] at hchild ⊢
            exact ih s hsz hus hns (getFieldD fields k) w _ hchild
          | unk =>
            simp only [childAttempt, hk0] at hchild ⊢
            exact ih s hsz hus hns (getFieldD fields k) w _ hchild
          | plain =>
            simp only [childAttempt, hk0] at hchild ⊢
            exact ih s hsz hus hns (getFieldD fields k) w _ hchild
        rw [hsteady]

/-- Claim C9 (corrected, amended): idempotence holds for every schema that
contains no union node (and whose object shapes have no duplicate keys, as is
automatic for JS object literals): if `parse` succeeds with result `r`,
re-validating `r` succeeds and returns `r` itself.  Unions break the claim
(`c9_counterexample`). -/
theorem c9_idempotent_unionFree (s : Schema) (hu : unionFree s = true)
    (hn : nodupKeys s = true) (v r : Value) (ov : ObjectOptions)
    (h : Schema.parse s v ov = .ok r) : Schema.parse s r ov = .ok r :=
  c9_aux (sizeOf s) s le_rfl hu hn v r ov h

/-- Witness for the amended C9: `object({a: string, b: undefined})` on
`{a: "x"}` returns the transformed `{a: "x", b: undefined}`, and
re-validating that result returns it unchanged. -/
theorem c9_witness :
    (unionFree (.object (.cons "a" .string (.cons "b" .undef .nil)) ⟨none, none⟩) = true)
    ∧ (nodupKeys (.object (.cons "a" .string (.cons "b" .undef .nil)) ⟨none, none⟩) = true)
    ∧ (Schema.parse (.object (.cons "a" .string (.cons "b" .undef .nil)) ⟨none, none⟩)
        (.vobj (.cons "a" (.vstr "x") .nil)) noOpts
      = .ok (.vobj (.cons "a" (.vstr "x") (.cons "b" .vundef .nil))))
    ∧ (Schema.parse (.object (.cons "a" .string (.cons "b" .undef .nil)) ⟨none, none⟩)
        (.vobj (.cons "a" (.vstr "x") (.cons "b" .vundef .nil))) noOpts
      = .ok (.vobj (.cons "a" (.vstr "x") (.cons "b" .vundef .nil)))) :=
  ⟨rfl, by decide, rfl,
    c9_idempotent_unionFree (.object (.cons "a" .string (.cons "b" .undef .nil)) ⟨none, none⟩)
      rfl (by decide) (.vobj (.cons "a" (.vstr "x") .nil))
      (.vobj (.cons "a" (.vstr "x") (.cons "b" .vundef .nil))) noOpts rfl⟩

/-- A pattern containing a character absent from `s` cannot occur in `s`. -/
theorem countOcc_not_mem {P s : List Char} {c : Char} (hc : c ∈ P) (hs : c ∉ s) :
    countOcc P s = 0 := by
  induction s with
  | nil => rfl
  | cons d rest ih =>
    simp only [countOcc]
    have hpre : P.isPrefixOf (d :: rest) = false := by
      cases hp : P.isPrefixOf (d :: rest)
      · rfl
      · exact absurd ((List.isPrefixOf_iff_prefix.mp hp).subset hc) hs
    rw [hpre]
    simpa using ih fun hm => hs (List.mem_cons_of_mem d hm)

/-- Appending `B` cannot complete a new occurrence of `P` when `P`'s final
character does not occur in `B`. -/
theorem isPrefixOf_append_last {c : Char} {B : List Char} (hB : c ∉ B) :
    ∀ (y P : List Char), P.getLast? = some c → P.isPrefixOf (y ++ B) = P.isPrefixOf y := by
  intro y
  induction y with
  | nil =>
    intro P hlast
    cases P with
    | nil => simp at hlast
    | cons p P' =>
      simp only [List.nil_append]
      have hfalse : (p :: P').isPrefixOf B = false := by
        cases hp : (p :: P').isPrefixOf B
        · rfl
        · exact absurd ((List.isPrefixOf_iff_prefix.mp hp).subset
            (List.mem_of_mem_getLast? hlast)) hB
      rw [hfalse]
      rfl
  | cons d y' ih =>
    intro P hlast
    cases P with
    | nil => rfl
    | cons p P' =>
      simp only [List.cons_append, List.isPrefixOf, List.append_eq]
      cases P' with
      | nil => simp [List.isPrefixOf]
      | cons q Q =>
        rw [List.getLast?_cons_cons] at hlast
        rw [ih (q :: Q) hlast]

/-- Occurrences do not cross into a space-free right part when the pattern
ends with the missing character. -/
theorem countOcc_append_right {P A B : List Char} {c : Char}
    (hlast : P.getLast? = some c) (hB : c ∉ B) :
    countOcc P (A ++ B) = countOcc P A := by
  induction A with
  | nil =>
    simp only [List.nil_append]
    exact countOcc_not_mem (List.mem_of_mem_getLast? hlast) hB
  | cons x A' ih =>
    simp only [List.cons_append, countOcc, List.append_eq,
      show P.isPrefixOf (x :: (A' ++ B)) = P.isPrefixOf (x :: A') from
        isPrefixOf_append_last hB (x :: A') P hlast, ih]

/-- A pattern avoiding a separator character cannot span across it. -/
theorem isPrefixOf_sep {c : Char} {b : List Char} :
    ∀ (y P : List Char), c ∉ P → P.isPrefixOf (y ++ c :: b) = P.isPrefixOf y := by
  intro y
  induction y with
  | nil =>
    intro P hc
    cases P with
    | nil => rfl
    | cons p P' =>
      simp only [List.nil_append, List.isPrefixOf]
      rw [beq_eq_false_iff_ne.mpr fun he => hc (by rw [← he]; exact List.mem_cons_self p P')]
      rfl
  | cons d y' ih =>
    intro P hc
    cases P with
    | nil => rfl
    | cons p P' =>
      simp only [List.cons_append, List.isPrefixOf, List.append_eq]
      rw [ih P' fun hm => hc (List.mem_cons_of_mem p hm)]

/-- Counting splits at a separator character absent from the pattern. -/
theorem countOcc_append_sep {P : List Char} {c : Char} (hP : P ≠ []) (hc : c ∉ P) :
    ∀ (a b : List Char), countOcc P (a ++ c :: b) = countOcc P a + countOcc P b := by
  intro a
  induction a with
  | nil =>
    intro b
    simp only [List.nil_append, countOcc]
    cases P with
    | nil => exact absurd rfl hP
    | cons p P' =>
      have hpre : (p :: P').isPrefixOf (c :: b) = false := by
        simp only [List.isPrefixOf]
        rw [beq_eq_false_iff_ne.mpr fun he => hc (by rw [← he]; exact List.mem_cons_self p P')]
        rfl
      rw [hpre]
      simp [countOcc]
  | cons x a' ih =>
    intro b
    simp only [List.cons_append, countOcc, List.append_eq,
      show P.isPrefixOf (x :: (a' ++ c :: b)) = P.isPrefixOf (x :: a') from
        isPrefixOf_sep (x :: a') P hc, ih b]
    omega

/-- Proper suffixes of a self-overlap-free pattern start no occurrence. -/
theorem countOcc_suffix_zero {P : List Char}
    (hno : ∀ i, i < P.length → 0 < i → (P.drop i).isPrefixOf P = false) :
    ∀ (s : List Char), s <:+ P → s ≠ P → ∀ X, countOcc P (s ++ X) = countOcc P X := by
  intro s
  induction s with
  | nil => intro _ _ X; rfl
  | cons d s' ih =>
    intro hsuf hne X
    have hlen : (d :: s').length < P.length := by
      rcases lt_or_eq_of_le hsuf.length_le with hlt | heq
      · exact hlt
      · exact absurd (hsuf.eq_of_length heq) hne
    simp only [List.cons_append, countOcc, List.append_eq]
    have hpre : P.isPrefixOf (d :: (s' ++ X)) = false := by
      cases hp : P.isPrefixOf (d :: (s' ++ X))
      · rfl
      · exfalso
        have hpp : P <+: (d :: s') ++ X := by
          simpa using List.isPrefixOf_iff_prefix.mp hp
        have htake : d :: s' = P.take (d :: s').length := by
          obtain ⟨t, ht⟩ := hpp
          have h1 : ((d :: s') ++ X).take (d :: s').length = d :: s' := List.take_left _ _
          rw [← ht, List.take_append_of_le_length (le_of_lt hlen)] at h1
          exact h1.symm
        obtain ⟨u, hu⟩ := hsuf
        have hdrop : P.drop u.length = d :: s' := by
          rw [← hu]; exact List.drop_left u _
        have hiu : u.length < P.length := by
          rw [← hu]; simp
        have hpos : 0 < u.length := by
          rcases Nat.eq_zero_or_pos u.length with h0 | hpos
          · rw [List.length_eq_zero.mp h0] at hu
            simp at hu
            exact absurd hu hne
          · exact hpos
        have hfalse := hno u.length hiu hpos
        rw [hdrop] at hfalse
        have htrue : (d :: s').isPrefixOf P = true :=
          List.isPrefixOf_iff_prefix.mpr (htake ▸ List.take_prefix _ _)
        rw [htrue] at hfalse
        exact Bool.noConfusion hfalse
    have hsuf' : s' <:+ P := (List.suffix_cons d s').trans hsuf
    have hne' : s' ≠ P := by
      intro he
      rw [he] at hlen
      simp at hlen
    simp only [hpre, Bool.false_eq_true, if_false, Nat.zero_add]
    exact ih hsuf' hne' X

/-- A self-overlap-free pattern occurs exactly once at the front. -/
theorem countOcc_self_append {P : List Char} (hP : P ≠ [])
    (hno : ∀ i, i < P.length → 0 < i → (P.drop i).isPrefixOf P = false) (X : List Char) :
    countOcc P (P ++ X) = 1 + countOcc P X := by
  cases P with
  | nil => exact absurd rfl hP
  | cons p P0 =>
    have hcond : (p :: P0).isPrefixOf (p :: (P0 ++ X)) = true :=
      List.isPrefixOf_iff_prefix.mpr (List.prefix_append (p :: P0) X)
    have hrest := countOcc_suffix_zero hno P0 (List.suffix_cons p P0)
      (by
        intro he
        have := congrArg List.length he
        simp at this) X
    simp only [List.cons_append, countOcc, List.append_eq, hcond, eq_self_iff_true,
      if_true, hrest]

/-- No occurrence can end exactly at an appended final character when some
non-final pattern character is missing from the left part. -/
theorem countOcc_concat_zero {P : List Char} {d : Char} :
    ∀ (a : List Char) (c : Char), d ∈ P.dropLast → d ∉ a → countOcc P (a ++ [c]) = 0 := by
  intro a
  induction a with
  | nil =>
    intro c hd _
    simp only [List.nil_append, countOcc]
    have hpre : P.isPrefixOf [c] = false := by
      cases hp : P.isPrefixOf [c]
      · rfl
      · exfalso
        have hpp : P <+: [] ++ [c] := by simpa using List.isPrefixOf_iff_prefix.mp hp
        rcases List.prefix_concat_iff.mp hpp with he | hpre2
        · rw [he] at hd
          simp at hd
        · rw [List.prefix_nil.mp hpre2] at hd
          simp at hd
    rw [hpre]
    rfl
  | cons x a' ih =>
    intro c hd ha
    have hpre : P.isPrefixOf (x :: (a' ++ [c])) = false := by
      cases hp : P.isPrefixOf (x :: (a' ++ [c]))
      · rfl
      · exfalso
        have hpp : P <+: (x :: a') ++ [c] := by
          simpa using List.isPrefixOf_iff_prefix.mp hp
        rcases List.prefix_concat_iff.mp hpp with he | hpre2
        · have hdl : P.dropLast = x :: a' := by
            rw [he]; exact List.dropLast_concat
          rw [hdl] at hd
          exact ha hd
        · exact ha (hpre2.subset ((List.dropLast_sublist P).subset hd))
    simp only [List.cons_append, countOcc, List.append_eq, hpre, Bool.false_eq_true,
      if_false, Nat.zero_add]
    exact ih c hd fun hm => ha (List.mem_cons_of_mem x hm)

/-- A pattern whose head differs from the first character starts later. -/
theorem countOcc_cons_ne {p c : Char} {P' bare : List Char} (h : p ≠ c) :
    countOcc (p :: P') (c :: bare) = countOcc (p :: P') bare := by
  have hb : (p == c) = false := beq_eq_false_iff_ne.mpr h
  simp only [countOcc, List.isPrefixOf, hb, Bool.false_and, Bool.false_eq_true, if_false,
    Nat.zero_add]

/-- String-level concatenation distributes over `toList` definitionally. -/
theorem toList_append (a b : String) : (a ++ b).toList = a.toList ++ b.toList := rfl

theorem pathChar_of_alnum {c : Char} (h : c.isAlphanum = true) : isPathChar c = true := by
  simp [isPathChar, h]

theorem not_mem_of_pathChars {x : Char} (hx : isPathChar x = false) {l : List Char}
    (hl : ∀ c ∈ l, isPathChar c = true) : x ∉ l := by
  intro hm
  rw [hl x hm] at hx
  exact Bool.noConfusion hx

theorem alnum_ne_space {c : Char} (h : c.isAlphanum = true) : c ≠ ' ' := by
  intro he
  rw [he] at h
  exact absurd h (by decide)

theorem digitCh_alnum (m : Nat) : (digitCh m).isAlphanum = true := by
  by_cases h : m < 16
  · interval_cases m <;> decide
  · unfold digitCh
    repeat rw [if_neg (by omega)]
    decide

theorem digitCh_pathChar (m : Nat) : isPathChar (digitCh m) = true :=
  pathChar_of_alnum (digitCh_alnum m)

theorem digitCh_ne_space (m : Nat) : digitCh m ≠ ' ' :=
  alnum_ne_space (digitCh_alnum m)

theorem decDigits_pathChars : ∀ (fuel n : Nat), ∀ c ∈ decDigits fuel n, isPathChar c = true := by
  intro fuel
  induction fuel with
  | zero => intro n c hc; simp [decDigits] at hc
  | succ fuel ih =>
    intro n c hc
    simp only [decDigits] at hc
    by_cases hn : n < 10
    · rw [if_pos hn] at hc
      simp at hc
      rw [hc]
      exact digitCh_pathChar n
    · rw [if_neg hn] at hc
      simp at hc
      rcases hc with hc | hc
      · exact ih _ c hc
      · rw [hc]
        exact digitCh_pathChar _

theorem decRepr_pathChars (n : Nat) : ∀ c ∈ (decRepr n).toList, isPathChar c = true :=
  fun c hc => decDigits_pathChars (n + 1) n c hc

/-- Rendered paths over clean segments use only path characters. -/
theorem prettyPrintPath_chars_aux :
    ∀ (path : List Seg) (acc : String × Nat),
      (∀ c ∈ acc.1.toList, isPathChar c = true) →
      (∀ seg ∈ path, segClean seg = true) →
      ∀ c ∈ (List.foldl
          (fun (p : String × Nat) elem =>
            match elem with
            | Seg.idx n => (p.1 ++ "[" ++ decRepr n ++ "]", p.2 + 1)
            | Seg.key k => (if p.2 == 0 then p.1 ++ k else p.1 ++ "." ++ k, p.2 + 1))
          acc path).1.toList, isPathChar c = true := by
  intro path
  induction path with
  | nil => intro acc hacc _ c hc; exact hacc c hc
  | cons seg rest ih =>
    intro acc hacc hsegs c hc
    simp only [List.foldl_cons] at hc
    have hseg := hsegs seg (List.mem_cons_self _ _)
    refine ih _ ?_ (fun s hs => hsegs s (List.mem_cons_of_mem seg hs)) c hc
    cases seg with
    | idx n =>
      intro d hd
      replace hd : d ∈ ((acc.1.toList ++ ['[']) ++ (decRepr n).toList) ++ [']'] := hd
      rcases List.mem_append.mp hd with hd | hd
      · rcases List.mem_append.mp hd with hd | hd
        · rcases List.mem_append.mp hd with hd | hd
          · exact hacc d hd
          · simp at hd
            rw [hd]
            decide
        · exact decRepr_pathChars n d hd
      · simp at hd
        rw [hd]
        decide
    | key k =>
      have hkey : ∀ d ∈ k.toList, isPathChar d = true := by
        intro d hd
        have := (List.all_eq_true.mp hseg) d hd
        exact pathChar_of_alnum (by simpa using this)
      intro d hd
      replace hd : d ∈ (if (acc.2 == 0) = true then acc.1 ++ k else acc.1 ++ "." ++ k).toList := hd
      by_cases hz : (acc.2 == 0) = true
      · rw [if_pos hz] at hd
        replace hd : d ∈ acc.1.toList ++ k.toList := hd
        rcases List.mem_append.mp hd with hd | hd
        · exact hacc d hd
        · exact hkey d hd
      · rw [if_neg hz] at hd
        replace hd : d ∈ (acc.1.toList ++ ['.']) ++ k.toList := hd
        rcases List.mem_append.mp hd with hd | hd
        · rcases List.mem_append.mp hd with hd | hd
          · exact hacc d hd
          · simp at hd
            rw [hd]
            decide
        · exact hkey d hd

theorem prettyPrintPath_chars (path : List Seg) (hsegs : ∀ seg ∈ path, segClean seg = true) :
    ∀ c ∈ (prettyPrintPath path).toList, isPathChar c = true := by
  intro c hc
  exact prettyPrintPath_chars_aux path ("", 0)
    (fun d hd => absurd (show d ∈ ([] : List Char) from hd) (List.not_mem_nil d))
    hsegs c hc

/-- Escaped characters never introduce a space. -/
theorem space_not_mem_escapeChar (c : Char) (hc : c ≠ ' ') : ' ' ∉ (escapeChar c).toList := by
  unfold escapeChar
  split_ifs <;> try decide
  · intro hm
    replace hm : ' ' ∈ ['\\', 'u', '0', '0'] ++ [digitCh (c.toNat / 16), digitCh (c.toNat % 16)] := hm
    simp at hm
    rcases hm with hm | hm
    · exact digitCh_ne_space _ hm.symm
    · exact digitCh_ne_space _ hm.symm
  · intro hm
    replace hm : ' ' ∈ [c] := hm
    simp at hm
    exact hc hm.symm

theorem space_not_mem_strConcat {l : List String} (h : ∀ s ∈ l, ' ' ∉ s.toList) :
    ' ' ∉ (strConcat l).toList := by
  induction l with
  | nil => simp [strConcat]
  | cons s rest ih =>
    intro hm
    replace hm : ' ' ∈ s.toList ++ (strConcat rest).toList := hm
    rcases List.mem_append.mp hm with hm | hm
    · exact h s (by simp) hm
    · exact ih (fun t ht => h t (by simp [ht])) hm

theorem space_not_mem_jsonQuote {k : String} (hk : cleanKey k = true) :
    ' ' ∉ (jsonQuote k).toList := by
  intro hm
  replace hm : ' ' ∈ '"' :: ((strConcat (k.toList.map escapeChar)).toList ++ ['"']) := hm
  rcases List.mem_cons.mp hm with hm | hm
  · exact absurd hm (by decide)
  · rcases List.mem_append.mp hm with hm | hm
    · refine space_not_mem_strConcat ?_ hm
      intro s hs
      rcases List.mem_map.mp hs with ⟨d, hd, rfl⟩
      exact space_not_mem_escapeChar d (alnum_ne_space (by simpa using (List.all_eq_true.mp hk) d hd))
    · simp at hm

theorem space_not_mem_strCommaSep : ∀ (l : List String), (∀ s ∈ l, ' ' ∉ s.toList) →
    ' ' ∉ (strCommaSep l).toList := by
  intro l
  induction l with
  | nil => intro _; simp [strCommaSep]
  | cons s rest ih =>
    intro h
    cases rest with
    | nil => simpa [strCommaSep] using h s (by simp)
    | cons t rest' =>
      intro hm
      replace hm : ' ' ∈ (s.toList ++ [',']) ++ (strCommaSep (t :: rest')).toList := hm
      rcases List.mem_append.mp hm with hm | hm
      · rcases List.mem_append.mp hm with hm | hm
        · exact h s (by simp) hm
        · simp at hm
      · exact ih (fun u hu => h u (by simp [List.mem_cons.mp hu])) hm

theorem space_not_mem_json {keys : List String} (h : ∀ k ∈ keys, cleanKey k = true) :
    ' ' ∉ (jsonStringifyStrings keys).toList := by
  intro hm
  replace hm : ' ' ∈ '[' :: ((strCommaSep (keys.map jsonQuote)).toList ++ [']']) := hm
  rcases List.mem_cons.mp hm with hm | hm
  · exact absurd hm (by decide)
  · rcases List.mem_append.mp hm with hm | hm
    · refine space_not_mem_strCommaSep _ ?_ hm
      intro s hs
      rcases List.mem_map.mp hs with ⟨k, hk, rfl⟩
      exact space_not_mem_jsonQuote (h k hk)
    · simp at hm

theorem typeOf_alnum (v : Value) : ∀ c ∈ (typeOf v).toList, c.isAlphanum = true := by
  cases v <;> simp only [typeOf] <;> decide

theorem space_not_mem_typeOf (v : Value) : ' ' ∉ (typeOf v).toList := fun hm =>
  absurd (typeOf_alnum v ' ' hm) (by decide)

theorem objPat_getLast : objPrefixPat.getLast? = some ' ' := by decide

theorem arrPat_getLast : arrPrefixPat.getLast? = some ' ' := by decide

theorem objPat_ne_nil : objPrefixPat ≠ [] := by decide

theorem arrPat_ne_nil : arrPrefixPat ≠ [] := by decide

theorem arrPat_no_overlap : ∀ i, i < arrPrefixPat.length → 0 < i →
    (arrPrefixPat.drop i).isPrefixOf arrPrefixPat = false := by decide

theorem countOcc_objPat_cons_space (bare : List Char) :
    countOcc objPrefixPat (' ' :: bare) = countOcc objPrefixPat bare :=
  @countOcc_cons_ne 'e' ' ' ("rror parsing object at path: ".toList) bare
    (show 'e' ≠ ' ' by decide)

theorem countOcc_arrPat_cons_space (bare : List Char) :
    countOcc arrPrefixPat (' ' :: bare) = countOcc arrPrefixPat bare :=
  @countOcc_cons_ne 'e' ' ' ("rror at ".toList) bare (show 'e' ≠ ' ' by decide)

/-- Exact prefix counts of the object node's wrap (`error parsing object at
path: "<pp>" - <bare>`): one object-prefix occurrence, no array-prefix
occurrence, given clean path characters and a clean bare message. -/
theorem countOcc_objWrap (pp bare : List Char)
    (hpp : ∀ c ∈ pp, isPathChar c = true)
    (hb1 : countOcc objPrefixPat bare = 0) (hb2 : countOcc arrPrefixPat bare = 0) :
    countOcc objPrefixPat (objPrefixPat ++ '"' :: (pp ++ '"' :: ' ' :: '-' :: ' ' :: bare)) = 1
    ∧ countOcc arrPrefixPat (objPrefixPat ++ '"' :: (pp ++ '"' :: ' ' :: '-' :: ' ' :: bare)) = 0 := by
  have hsp_pp : ' ' ∉ pp := not_mem_of_pathChars (by decide) hpp
  constructor
  · rw [countOcc_append_sep objPat_ne_nil (by decide) objPrefixPat
      (pp ++ '"' :: ' ' :: '-' :: ' ' :: bare)]
    rw [countOcc_append_sep objPat_ne_nil (by decide) pp (' ' :: '-' :: ' ' :: bare)]
    rw [show (' ' :: '-' :: ' ' :: bare) = [' '] ++ '-' :: (' ' :: bare) from rfl]
    rw [countOcc_append_sep objPat_ne_nil (by decide) [' '] (' ' :: bare)]
    rw [countOcc_objPat_cons_space bare, hb1]
    rw [countOcc_not_mem (show ' ' ∈ objPrefixPat by decide) hsp_pp]
    norm_num
    decide
  · rw [countOcc_append_sep arrPat_ne_nil (by decide) objPrefixPat
      (pp ++ '"' :: ' ' :: '-' :: ' ' :: bare)]
    rw [countOcc_append_sep arrPat_ne_nil (by decide) pp (' ' :: '-' :: ' ' :: bare)]
    rw [show (' ' :: '-' :: ' ' :: bare) = [' '] ++ '-' :: (' ' :: bare) from rfl]
    rw [countOcc_append_sep arrPat_ne_nil (by decide) [' '] (' ' :: bare)]
    rw [countOcc_arrPat_cons_space bare, hb2]
    rw [countOcc_not_mem (show ' ' ∈ arrPrefixPat by decide) hsp_pp]
    norm_num
    decide

/-- Exact prefix counts of the array node's wrap (`error at <pp> - <bare>`):
one array-prefix occurrence and no object-prefix occurrence. -/
theorem countOcc_arrWrap (pp bare : List Char)
    (hpp : ∀ c ∈ pp, isPathChar c = true)
    (hb1 : countOcc objPrefixPat bare = 0) (hb2 : countOcc arrPrefixPat bare = 0) :
    countOcc objPrefixPat (arrPrefixPat ++ (pp ++ ' ' :: '-' :: ' ' :: bare)) = 0
    ∧ countOcc arrPrefixPat (arrPrefixPat ++ (pp ++ ' ' :: '-' :: ' ' :: bare)) = 1 := by
  have hsp_pp : ' ' ∉ pp := not_mem_of_pathChars (by decide) hpp
  have hcolon_pp : ':' ∉ pp := not_mem_of_pathChars (by decide) hpp
  constructor
  · rw [show arrPrefixPat ++ (pp ++ ' ' :: '-' :: ' ' :: bare)
        = ((arrPrefixPat ++ pp) ++ [' ']) ++ '-' :: (' ' :: bare) from by simp]
    rw [countOcc_append_sep objPat_ne_nil (by decide) ((arrPrefixPat ++ pp) ++ [' ']) (' ' :: bare)]
    rw [countOcc_objPat_cons_space bare, hb1]
    rw [countOcc_concat_zero (arrPrefixPat ++ pp) ' '
      (show ':' ∈ objPrefixPat.dropLast by decide)
      (by
        intro hm
        rcases List.mem_append.mp hm with hm | hm
        · exact absurd hm (by decide)
        · exact hcolon_pp hm)]
  · rw [countOcc_self_append arrPat_ne_nil arrPat_no_overlap (pp ++ ' ' :: '-' :: ' ' :: bare)]
    rw [show pp ++ ' ' :: '-' :: ' ' :: bare = (pp ++ [' ']) ++ '-' :: (' ' :: bare) from by simp]
    rw [countOcc_append_sep arrPat_ne_nil (by decide) (pp ++ [' ']) (' ' :: bare)]
    rw [countOcc_arrPat_cons_space bare, hb2]
    rw [countOcc_concat_zero pp ' ' (show ' ' ∈ arrPrefixPat.dropLast by decide) hsp_pp]

/-- The object wrap message, in list form. -/
theorem objWrap_toList (pp bareS : String) :
    ("error parsing object at path: \"" ++ pp ++ "\" - " ++ bareS).toList
      = objPrefixPat ++ '"' :: (pp.toList ++ '"' :: ' ' :: '-' :: ' ' :: bareS.toList) := by
  rw [show ("error parsing object at path: \"" ++ pp ++ "\" - " ++ bareS).toList
      = (("error parsing object at path: \"".toList ++ pp.toList)
          ++ "\" - ".toList) ++ bareS.toList from rfl]
  rw [show ("error parsing object at path: \"").toList = objPrefixPat ++ ['"'] from by decide]
  rw [show ("\" - ").toList = ['"', ' ', '-', ' '] from by decide]
  simp

/-- The array wrap message, in list form. -/
theorem arrWrap_toList (pp bareS : String) :
    ("error at " ++ pp ++ " - " ++ bareS).toList
      = arrPrefixPat ++ (pp.toList ++ ' ' :: '-' :: ' ' :: bareS.toList) := by
  rw [show ("error at " ++ pp ++ " - " ++ bareS).toList
      = (("error at ".toList ++ pp.toList) ++ " - ".toList) ++ bareS.toList from rfl]
  rw [show (" - ").toList = [' ', '-', ' '] from by decide]
  rw [show ("error at ").toList = arrPrefixPat from by decide]
  simp

/-- Counts of the Unknown-required message over a clean key. -/
theorem counts_unknownMsg {k : String} (hk : cleanKey k = true) :
    countOcc objPrefixPat (unknownKeyMsg k).toList = 0
    ∧ countOcc arrPrefixPat (unknownKeyMsg k).toList = 0 := by
  have hsp : ' ' ∉ k.toList := fun hm =>
    alnum_ne_space (by simpa using (List.all_eq_true.mp hk) ' ' hm) rfl
  have hsh : (unknownKeyMsg k).toList
      = "expected key ".toList
        ++ '"' :: (k.toList ++ '"' :: " of unknown type to be present on object".toList) := by
    rw [show (unknownKeyMsg k).toList
        = ("expected key \"".toList ++ k.toList)
            ++ "\" of unknown type to be present on object".toList from rfl]
    rw [show ("expected key \"").toList = "expected key ".toList ++ ['"'] from by decide]
    rw [show ("\" of unknown type to be present on object").toList
        = '"' :: " of unknown type to be present on object".toList from by decide]
    simp
  rw [hsh]
  constructor
  · rw [countOcc_append_sep objPat_ne_nil (by decide) "expected key ".toList
      (k.toList ++ '"' :: " of unknown type to be present on object".toList)]
    rw [countOcc_append_sep objPat_ne_nil (by decide) k.toList
      " of unknown type to be present on object".toList]
    rw [countOcc_not_mem (show ' ' ∈ objPrefixPat by decide) hsp]
    decide
  · rw [countOcc_append_sep arrPat_ne_nil (by decide) "expected key ".toList
      (k.toList ++ '"' :: " of unknown type to be present on object".toList)]
    rw [countOcc_append_sep arrPat_ne_nil (by decide) k.toList
      " of unknown type to be present on object".toList]
    rw [countOcc_not_mem (show ' ' ∈ arrPrefixPat by decide) hsp]
    decide

/-- Counts for a fixed left message followed by a rendered runtime type. -/
theorem counts_typeOf_msg (A : String) (hA1 : countOcc objPrefixPat A.toList = 0)
    (hA2 : countOcc arrPrefixPat A.toList = 0) (v : Value) :
    countOcc objPrefixPat (A ++ typeOf v).toList = 0
    ∧ countOcc arrPrefixPat (A ++ typeOf v).toList = 0 := by
  constructor
  · rw [show (A ++ typeOf v).toList = A.toList ++ (typeOf v).toList from rfl]
    rw [countOcc_append_right objPat_getLast (space_not_mem_typeOf v)]
    exact hA1
  · rw [show (A ++ typeOf v).toList = A.toList ++ (typeOf v).toList from rfl]
    rw [countOcc_append_right arrPat_getLast (space_not_mem_typeOf v)]
    exact hA2

/-- Packaging of the C1 conclusion for pathless, prefix-free errors. -/
theorem c1_concl_of_zero {sup : Option Bool} (e : ValidationError) (hpath : e.path = none)
    (h1 : countOcc objPrefixPat e.message.toList = 0)
    (h2 : countOcc arrPrefixPat e.message.toList = 0) :
    (∀ seg ∈ e.path.getD [], segClean seg = true)
    ∧ countOcc objPrefixPat e.message.toList + countOcc arrPrefixPat e.message.toList
        = (if truthy sup = true then 0 else if e.path.isSome then 1 else 0) := by
  refine ⟨by simp [hpath], ?_⟩
  rw [h1, h2, hpath]
  cases truthy sup <;> simp

/-- Clean objects have clean own keys. -/
theorem cleanF_keys {fields : Fields} (h : cleanF fields = true) :
    ∀ k ∈ keysOf fields, cleanKey k = true := by
  induction fields using Fields.inductionOnFields with
  | hnil => intro k hk; simp [keysOf] at hk
  | hcons k0 v0 rest ih =>
    intro k hk
    simp only [cleanF, Bool.and_eq_true] at h
    rcases List.mem_cons.mp hk with hk | hk
    · rw [hk]; exact h.1.1
    · exact ih h.2 k hk

/-- Clean objects have clean field reads. -/
theorem cleanF_getFieldD {fields : Fields} (h : cleanF fields = true) (k : String) :
    cleanV (getFieldD fields k) = true := by
  induction fields using Fields.inductionOnFields with
  | hnil => rfl
  | hcons k0 v0 rest ih =>
    simp only [cleanF, Bool.and_eq_true] at h
    simp only [getFieldD, getField]
    by_cases hk : (k0 == k) = true
    · rw [if_pos hk]; exact h.1.2
    · rw [if_neg hk]; exact ih h.2

/-- Clean arrays have clean elements. -/
theorem cleanVL_mem {elems : ValueList} (h : cleanVL elems = true) :
    ∀ el ∈ elems.toList, cleanV el = true := by
  induction elems using ValueList.inductionOnValues with
  | hnil => intro el hel; simp [ValueList.toList] at hel
  | hcons v0 rest ih =>
    intro el hel
    simp only [cleanVL, Bool.and_eq_true] at h
    rcases List.mem_cons.mp hel with hel | hel
    · rw [hel]; exact h.1
    · exact ih h.2 el hel

/-- Plainness descends to declared keys and children. -/
theorem shape_toList_mem_plain {shape : Shape} (h : plainShape shape = true) :
    ∀ p ∈ shape.toList, cleanKey p.1 = true ∧ plainS p.2 = true := by
  induction shape using Shape.inductionOnShape with
  | hnil => intro p hp; simp [Shape.toList] at hp
  | hcons k0 s0 rest ih =>
    intro p hp
    simp only [plainShape, Bool.and_eq_true] at h
    rcases List.mem_cons.mp hp with hp | hp
    · rw [hp]; exact ⟨h.1.1, h.1.2⟩
    · exact ih h.2 p hp

/-- In the C1 fragment, nodes that are neither Object nor Array raise only
pathless errors. -/
theorem plain_leaf_path_none (s : Schema) (hplain : plainS s = true)
    (hk : kindOf s = Kind.plain ∨ kindOf s = Kind.unk) (v : Value) (ov : ObjectOptions)
    (e : ValidationError) (h : Schema.parse s v ov = .error e) : e.path = none := by
  cases s with
  | string =>
    cases v <;> simp only [Schema.parse] at h <;>
      first
        | exact Except.noConfusion h
        | (injection h with h2; rw [← h2])
  | boolean =>
    cases v <;> simp only [Schema.parse] at h <;>
      first
        | exact Except.noConfusion h
        | (injection h with h2; rw [← h2])
  | number =>
    cases v <;> simp only [Schema.parse] at h <;>
      first
        | exact Except.noConfusion h
        | (injection h with h2; rw [← h2])
  | undef =>
    cases v <;> simp only [Schema.parse] at h <;>
      first
        | exact Except.noConfusion h
        | (injection h with h2; rw [← h2])
  | nul =>
    cases v <;> simp only [Schema.parse] at h <;>
      first
        | exact Except.noConfusion h
        | (injection h with h2; rw [← h2])
  | literal l => simp [plainS] at hplain
  | unknown => exact Except.noConfusion h
  | object shape opts => simp [kindOf] at hk
  | array es => simp [kindOf] at hk
  | union schemas strict => simp [plainS] at hplain
  | intersection l r => simp [plainS] at hplain

/-- A failing field step is either the Unknown-required failure or a failing
child validation. -/
theorem fieldStep_error_inv (merged : ObjectOptions) (fields : Fields) (k : String)
    (s : Schema) (err : ValidationError) (h : fieldStep merged fields k s = .error err) :
    err = ⟨unknownKeyMsg k, none⟩
    ∨ childAttempt merged s (getFieldD fields k) = .error err := by
  unfold fieldStep at h
  by_cases hc : (kindOf s == Kind.unk && !(hasKey fields k)) = true
  · rw [if_pos hc] at h
    left
    injection h with h
    exact h.symm
  · rw [if_neg hc] at h
    exact Or.inr h

/-- A failing per-key loop comes from some declared key's failing step,
wrapped by the object catch block. -/
theorem runFields_error_inv (fields : Fields) (merged : ObjectOptions) :
    ∀ (shape : Shape) (acc : Fields) (e : ValidationError),
      runFields (shapeRunners shape) fields acc merged = .error e →
      ∃ k s err, (k, s) ∈ shape.toList ∧ fieldStep merged fields k s = .error err
        ∧ e = wrapObjectErr (truthy merged.suppressPathErrMsg) k err := by
  intro shape
  induction shape using Shape.inductionOnShape with
  | hnil =>
    intro acc e h
    simp only [shapeRunners, runFields] at h
    exact Except.noConfusion h
  | hcons k0 s0 rest ih =>
    intro acc e h
    rw [runFields_cons] at h
    cases hstep : fieldStep merged fields k0 s0 with
    | error err0 =>
      rw [hstep] at h
      injection h with h
      exact ⟨k0, s0, err0, by simp [Shape.toList], hstep, h.symm⟩
    | ok w =>
      rw [hstep] at h
      obtain ⟨k, s, err, hmem, hstep', he⟩ := ih (setKey acc k0 w) e h
      exact ⟨k, s, err, by simp [Shape.toList, hmem], hstep', he⟩

/-- A failing element loop comes from some element's failing validation,
wrapped by the array catch block. -/
theorem runElems_error_inv (f : Value → ObjectOptions → Except ValidationError Value)
    (special suppress : Bool) :
    ∀ (elems : ValueList) (idx : Nat) (e : ValidationError),
      runElems f special suppress elems idx = .error e →
      ∃ el i err, el ∈ elems.toList
        ∧ (if special then f el ⟨none, some true⟩ else f el noOpts) = .error err
        ∧ e = wrapArrayErr suppress i err := by
  intro elems
  induction elems using ValueList.inductionOnValues with
  | hnil =>
    intro idx e h
    simp only [runElems] at h
    exact Except.noConfusion h
  | hcons el0 rest ih =>
    intro idx e h
    simp only [runElems] at h
    cases hstep : (if special then f el0 ⟨none, some true⟩ else f el0 noOpts) with
    | error err0 =>
      rw [hstep] at h
      injection h with h
      exact ⟨el0, idx, err0, by simp [ValueList.toList], hstep, h.symm⟩
    | ok w =>
      rw [hstep] at h
      obtain ⟨el, i, err, hmem, hstep', he⟩ := ih (idx + 1) e h
      exact ⟨el, i, err, by simp [ValueList.toList, hmem], hstep', he⟩

/-- A failing object validation is either the unexpected-keys failure or a
failing per-key loop. -/
theorem parse_object_error_inv (shape : Shape) (opts ov : ObjectOptions) (fields : Fields)
    (e : ValidationError) (h : Schema.parse (.object shape opts) (.vobj fields) ov = .error e) :
    e = ⟨"unexpected keys on object: "
        ++ jsonStringifyStrings
            ((keysOf fields).filter (fun x => !((shapeKeys shape).contains x))), none⟩
    ∨ runFields (shapeRunners shape) fields fields (mergeOpts opts ov) = .error e := by
  simp only [Schema.parse] at h
  by_cases hau : truthy (mergeOpts opts ov).allowUnknown = true
  · rw [if_pos hau] at h
    right
    cases hrf : runFields (shapeRunners shape) fields fields (mergeOpts opts ov) with
    | ok out => rw [hrf] at h; exact Except.noConfusion h
    | error e' => rw [hrf] at h; injection h with h; rw [← h]
  · rw [if_neg hau] at h
    cases hfil : (keysOf fields).filter (fun x => !((shapeKeys shape).contains x)) with
    | nil =>
      rw [hfil] at h
      simp only [List.isEmpty_nil, if_true] at h
      right
      cases hrf : runFields (shapeRunners shape) fields fields (mergeOpts opts ov) with
      | ok out => rw [hrf] at h; exact Except.noConfusion h
      | error e' => rw [hrf] at h; injection h with h; rw [← h]
    | cons x xs =>
      rw [hfil] at h
      simp only [List.isEmpty_cons] at h
      rw [if_neg (by simp)] at h
      left
      injection h with h
      rw [← h]

/-- A failing array validation on a sequence is a failing element loop. -/
theorem parse_array_error_inv (es : Schema) (elems : ValueList) (ov : ObjectOptions)
    (e : ValidationError) (h : Schema.parse (.array es) (.varr elems) ov = .error e) :
    runElems (fun w o => Schema.parse es w o)
      (kindOf es == Kind.obj || kindOf es == Kind.arr)
      (truthy ov.suppressPathErrMsg) elems 0 = .error e := by
  simp only [Schema.parse] at h
  cases hre : runElems (fun w o => Schema.parse es w o)
      (kindOf es == Kind.obj || kindOf es == Kind.arr)
      (truthy ov.suppressPathErrMsg) elems 0 with
  | ok u => rw [hre] at h; exact Except.noConfusion h
  | error e' => rw [hre] at h; injection h with h; rw [← h]

/-- The effective suppression of an object call in the C1 fragment is the
caller's flag (node-level suppression is excluded there). -/
theorem truthy_merge_sup (opts : ObjectOptions) (a sup : Option Bool)
    (hna : ¬ opts.suppressPathErrMsg = some true) :
    truthy (mergeOpts opts ⟨a, sup⟩).suppressPathErrMsg = truthy sup := by
  cases sup with
  | some b => rfl
  | none =>
    cases ho : opts.suppressPathErrMsg with
    | none => simp [mergeOpts, truthy, ho]
    | some b =>
      cases b with
      | true => exact absurd ho hna
      | false => simp [mergeOpts, truthy, ho]

/-- A declared child schema is smaller than its shape (membership form). -/
theorem toList_mem_sizeOf (shape : Shape) :
    ∀ p ∈ shape.toList, sizeOf p.2 < sizeOf shape := by
  induction shape using Shape.inductionOnShape with
  | hnil => intro p hp; simp [Shape.toList] at hp
  | hcons k0 s0 rest ih =>
    intro p hp
    rcases List.mem_cons.mp hp with hp | hp
    · rw [hp]
      simp
      omega
    · have := ih p hp
      simp
      omega

/-- Counts of the unexpected-keys message over clean extra keys. -/
theorem counts_unexpectedKeys {keys : List String} (h : ∀ k ∈ keys, cleanKey k = true) :
    countOcc objPrefixPat ("unexpected keys on object: " ++ jsonStringifyStrings keys).toList = 0
    ∧ countOcc arrPrefixPat ("unexpected keys on object: " ++ jsonStringifyStrings keys).toList
        = 0 := by
  rw [show ("unexpected keys on object: " ++ jsonStringifyStrings keys).toList
      = "unexpected keys on object: ".toList ++ (jsonStringifyStrings keys).toList from rfl]
  constructor
  · rw [countOcc_append_right objPat_getLast (space_not_mem_json h)]
    decide
  · rw [countOcc_append_right arrPat_getLast (space_not_mem_json h)]
    decide

/-- Main induction for C1 over the object/array-only fragment: on clean input,
a failing validation with caller options `⟨a, sup⟩` raises an error whose path
segments are clean and whose message carries a wrap prefix (object-form and
array-form occurrences counted together) exactly once when the caller did not
request suppression and the error has a path, and never otherwise. -/
theorem c1_main :
    ∀ (n : Nat) (s : Schema), sizeOf s ≤ n → plainS s = true →
    ∀ (v : Value), cleanV v = true → ∀ (a sup : Option Bool) (e : ValidationError),
      Schema.parse s v ⟨a, sup⟩ = .error e →
      (∀ seg ∈ e.path.getD [], segClean seg = true)
      ∧ countOcc objPrefixPat e.message.toList + countOcc arrPrefixPat e.message.toList
          = (if truthy sup = true then 0 else if e.path.isSome then 1 else 0) := by
  intro n
  induction n with
  | zero =>
    intro s hs
    exfalso
    cases s <;> simp at hs
  | succ n ih =>
    intro s hs hplain v hv a sup e h
    cases s with
    | string =>
      cases v <;> simp only [Schema.parse] at h <;>
        first
          | exact Except.noConfusion h
          | (injection h with h2; subst h2
             exact c1_concl_of_zero _ rfl
               (counts_typeOf_msg "expected type to be string but got "
                 (by decide) (by decide) _).1
               (counts_typeOf_msg "expected type to be string but got "
                 (by decide) (by decide) _).2)
    | boolean =>
      cases v <;> simp only [Schema.parse] at h <;>
        first
          | exact Except.noConfusion h
          | (injection h with h2; subst h2
             exact c1_concl_of_zero _ rfl
               (counts_typeOf_msg "expected type to be boolean but got "
                 (by decide) (by decide) _).1
               (counts_typeOf_msg "expected type to be boolean but got "
                 (by decide) (by decide) _).2)
    | number =>
      cases v <;> simp only [Schema.parse] at h <;>
        first
          | exact Except.noConfusion h
          | (injection h with h2; subst h2
             exact c1_concl_of_zero _ rfl
               (counts_typeOf_msg "expected type to be number but got "
                 (by decide) (by decide) _).1
               (counts_typeOf_msg "expected type to be number but got "
                 (by decide) (by decide) _).2)
    | undef =>
      cases v <;> simp only [Schema.parse] at h <;>
        first
          | exact Except.noConfusion h
          | (injection h with h2; subst h2
             exact c1_concl_of_zero _ rfl
               (counts_typeOf_msg "expected type to be undefined but got "
                 (by decide) (by decide) _).1
               (counts_typeOf_msg "expected type to be undefined but got "
                 (by decide) (by decide) _).2)
    | nul =>
      cases v <;> simp only [Schema.parse] at h <;>
        first
          | exact Except.noConfusion h
          | (injection h with h2; subst h2
             exact c1_concl_of_zero _ rfl
               (counts_typeOf_msg "expected type to be null but got "
                 (by decide) (by decide) _).1
               (counts_typeOf_msg "expected type to be null but got "
                 (by decide) (by decide) _).2)
    | unknown =>
      simp only [Schema.parse] at h
      exact Except.noConfusion h
    | literal l => simp [plainS] at hplain
    | union schemas strict => simp [plainS] at hplain
    | intersection l0 r0 => simp [plainS] at hplain
    | array es =>
      cases v with
      | vstr s0 =>
        simp only [Schema.parse] at h
        injection h with h2
        subst h2
        exact c1_concl_of_zero _ rfl
          (counts_typeOf_msg "expected an array but got " (by decide) (by decide) _).1
          (counts_typeOf_msg "expected an array but got " (by decide) (by decide) _).2
      | vnum n0 =>
        simp only [Schema.parse] at h
        injection h with h2
        subst h2
        exact c1_concl_of_zero _ rfl
          (counts_typeOf_msg "expected an array but got " (by decide) (by decide) _).1
          (counts_typeOf_msg "expected an array but got " (by decide) (by decide) _).2
      | vbool b0 =>
        simp only [Schema.parse] at h
        injection h with h2
        subst h2
        exact c1_concl_of_zero _ rfl
          (counts_typeOf_msg "expected an array but got " (by decide) (by decide) _).1
          (counts_typeOf_msg "expected an array but got " (by decide) (by decide) _).2
      | vundef =>
        simp only [Schema.parse] at h
        injection h with h2
        subst h2
        exact c1_concl_of_zero _ rfl
          (counts_typeOf_msg "expected an array but got " (by decide) (by decide) _).1
          (counts_typeOf_msg "expected an array but got " (by decide) (by decide) _).2
      | vnull =>
        simp only [Schema.parse] at h
        injection h with h2
        subst h2
        exact c1_concl_of_zero _ rfl
          (counts_typeOf_msg "expected an array but got " (by decide) (by decide) _).1
          (counts_typeOf_msg "expected an array but got " (by decide) (by decide) _).2
      | vobj f0 =>
        simp only [Schema.parse] at h
        injection h with h2
        subst h2
        exact c1_concl_of_zero _ rfl
          (counts_typeOf_msg "expected an array but got " (by decide) (by decide) _).1
          (counts_typeOf_msg "expected an array but got " (by decide) (by decide) _).2
      | varr elems =>
        have hplain2 : plainS es = true := by simpa [plainS] using hplain
        have hvl : cleanVL elems = true := by simpa [cleanV] using hv
        have hsz : sizeOf es ≤ n := by
          have hlt : sizeOf es < sizeOf (Schema.array es) := by simp
          omega
        have hre := parse_array_error_inv es elems ⟨a, sup⟩ e h
        obtain ⟨el, i, err, hmem, hstep, he⟩ :=
          runElems_error_inv (fun w o => Schema.parse es w o)
            (kindOf es == Kind.obj || kindOf es == Kind.arr)
            (truthy (ObjectOptions.mk a sup).suppressPathErrMsg) elems 0 e hre
        have hel : cleanV el = true := cleanVL_mem hvl el hmem
        have hchild : (∀ seg ∈ err.path.getD [], segClean seg = true)
            ∧ countOcc objPrefixPat err.message.toList = 0
            ∧ countOcc arrPrefixPat err.message.toList = 0 := by
          by_cases hsp2 : (kindOf es == Kind.obj || kindOf es == Kind.arr) = true
          · rw [if_pos hsp2] at hstep
            have hih := ih es hsz hplain2 el hel none (some true) err hstep
            have h2 : countOcc objPrefixPat err.message.toList
                + countOcc arrPrefixPat err.message.toList = 0 := by
              simpa [truthy] using hih.2
            exact ⟨hih.1, by omega, by omega⟩
          · rw [if_neg hsp2] at hstep
            have hkind : kindOf es = Kind.plain ∨ kindOf es = Kind.unk := by
              cases hke : kindOf es with
              | obj => exact absurd (show (kindOf es == Kind.obj || kindOf es == Kind.arr)
                  = true by simp only [hke]; decide) hsp2
              | arr => exact absurd (show (kindOf es == Kind.obj || kindOf es == Kind.arr)
                  = true by simp only [hke]; decide) hsp2
              | unk => exact Or.inr rfl
              | plain => exact Or.inl rfl
            have hpn := plain_leaf_path_none es hplain2 hkind el noOpts err hstep
            have hih := ih es hsz hplain2 el hel none none err hstep
            have h2 : countOcc objPrefixPat err.message.toList
                + countOcc arrPrefixPat err.message.toList = 0 := by
              have h3 := hih.2
              rw [hpn] at h3
              simpa [truthy] using h3
            exact ⟨hih.1, by omega, by omega⟩
        have hsegs : ∀ seg ∈ Seg.idx i :: err.path.getD [], segClean seg = true := by
          intro seg hseg
          rcases List.mem_cons.mp hseg with hseg | hseg
          · rw [hseg]; rfl
          · exact hchild.1 seg hseg
        cases htr : truthy sup with
        | true =>
          have hS : truthy (ObjectOptions.mk a sup).suppressPathErrMsg = true := htr
          have hW : wrapArrayErr true i err
              = ⟨err.message, some (Seg.idx i :: err.path.getD [])⟩ := rfl
          rw [he, hS, hW]
          refine ⟨fun seg hseg => hsegs seg hseg, ?_⟩
          show countOcc objPrefixPat err.message.toList
              + countOcc arrPrefixPat err.message.toList
              = if true = true then 0
                else if (some (Seg.idx i :: err.path.getD [])).isSome then 1 else 0
          rw [if_pos rfl, hchild.2.1, hchild.2.2]
        | false =>
          have hS : truthy (ObjectOptions.mk a sup).suppressPathErrMsg = false := htr
          have hW : wrapArrayErr false i err
              = ⟨"error at " ++ prettyPrintPath (Seg.idx i :: err.path.getD [])
                  ++ " - " ++ err.message,
                 some (Seg.idx i :: err.path.getD [])⟩ := rfl
          rw [he, hS, hW]
          refine ⟨fun seg hseg => hsegs seg hseg, ?_⟩
          show countOcc objPrefixPat
                ("error at " ++ prettyPrintPath (Seg.idx i :: err.path.getD [])
                  ++ " - " ++ err.message).toList
              + countOcc arrPrefixPat
                ("error at " ++ prettyPrintPath (Seg.idx i :: err.path.getD [])
                  ++ " - " ++ err.message).toList
              = if false = true then 0
                else if (some (Seg.idx i :: err.path.getD [])).isSome then 1 else 0
          have hpp := prettyPrintPath_chars (Seg.idx i :: err.path.getD []) hsegs
          have hcw := countOcc_arrWrap (prettyPrintPath (Seg.idx i :: err.path.getD [])).toList
            err.message.toList hpp hchild.2.1 hchild.2.2
          rw [if_neg (by decide),
            if_pos (show (some (Seg.idx i :: err.path.getD [])).isSome = true from rfl),
            arrWrap_toList, hcw.1, hcw.2]
    | object shape opts =>
      have hplo : ¬ opts.suppressPathErrMsg = some true ∧ plainShape shape = true := by
        simp only [plainS, Bool.and_eq_true, Bool.not_eq_true', beq_eq_false_iff_ne] at hplain
        exact hplain
      cases v with
      | vstr s0 =>
        simp only [Schema.parse] at h
        injection h with h2
        subst h2
        exact c1_concl_of_zero _ rfl
          (counts_typeOf_msg "expected type to be object but got " (by decide) (by decide) _).1
          (counts_typeOf_msg "expected type to be object but got " (by decide) (by decide) _).2
      | vnum n0 =>
        simp only [Schema.parse] at h
        injection h with h2
        subst h2
        exact c1_concl_of_zero _ rfl
          (counts_typeOf_msg "expected type to be object but got " (by decide) (by decide) _).1
          (counts_typeOf_msg "expected type to be object but got " (by decide) (by decide) _).2
      | vbool b0 =>
        simp only [Schema.parse] at h
        injection h with h2
        subst h2
        exact c1_concl_of_zero _ rfl
          (counts_typeOf_msg "expected type to be object but got " (by decide) (by decide) _).1
          (counts_typeOf_msg "expected type to be object but got " (by decide) (by decide) _).2
      | vundef =>
        simp only [Schema.parse] at h
        injection h with h2
        subst h2
        exact c1_concl_of_zero _ rfl
          (counts_typeOf_msg "expected type to be object but got " (by decide) (by decide) _).1
          (counts_typeOf_msg "expected type to be object but got " (by decide) (by decide) _).2
      | vnull =>
        simp only [Schema.parse] at h
        injection h with h2
        subst h2
        exact c1_concl_of_zero _ rfl (by decide) (by decide)
      | varr el0 =>
        simp only [Schema.parse] at h
        injection h with h2
        subst h2
        exact c1_concl_of_zero _ rfl (by decide) (by decide)
      | vobj fields =>
        have hvf : cleanF fields = true := by simpa [cleanV] using hv
        rcases parse_object_error_inv shape opts ⟨a, sup⟩ fields e h with he2 | hrf
        · subst he2
          have hkeys : ∀ kk ∈ (keysOf fields).filter
              (fun x => !((shapeKeys shape).contains x)), cleanKey kk = true :=
            fun kk hkk => cleanF_keys hvf kk (List.mem_of_mem_filter hkk)
          exact c1_concl_of_zero _ rfl
            (counts_unexpectedKeys hkeys).1 (counts_unexpectedKeys hkeys).2
        · obtain ⟨k, cs, err, hmem, hstep, he⟩ :=
            runFields_error_inv fields (mergeOpts opts ⟨a, sup⟩) shape fields e hrf
          have hps := shape_toList_mem_plain hplo.2 (k, cs) hmem
          have hsz : sizeOf cs ≤ n := by
            have h1 : sizeOf cs < sizeOf shape := toList_mem_sizeOf shape (k, cs) hmem
            have h2 : sizeOf shape < sizeOf (Schema.object shape opts) := by simp; omega
            omega
          have hflag : truthy (mergeOpts opts ⟨a, sup⟩).suppressPathErrMsg = truthy sup :=
            truthy_merge_sup opts a sup hplo.1
          have hchild : (∀ seg ∈ err.path.getD [], segClean seg = true)
              ∧ countOcc objPrefixPat err.message.toList = 0
              ∧ countOcc arrPrefixPat err.message.toList = 0 := by
            rcases fieldStep_error_inv (mergeOpts opts ⟨a, sup⟩) fields k cs err hstep
              with herr | hca
            · subst herr
              exact ⟨fun seg hseg => absurd hseg (List.not_mem_nil seg),
                (counts_unknownMsg hps.1).1, (counts_unknownMsg hps.1).2⟩
            · have hval : cleanV (getFieldD fields k) = true := cleanF_getFieldD hvf k
              cases hk0 : kindOf cs with
              | obj =>
                simp only [childAttempt, hk0] at hca
                have hih := ih cs hsz hps.2 (getFieldD fields k) hval
                  (mergeOpts opts ⟨a, sup⟩).allowUnknown (some true) err hca
                have h2 : countOcc objPrefixPat err.message.toList
                    + countOcc arrPrefixPat err.message.toList = 0 := by
                  simpa [truthy] using hih.2
                exact ⟨hih.1, by omega, by omega⟩
              | arr =>
                simp only [childAttempt, hk0] at hca
                have hih := ih cs hsz hps.2 (getFieldD fields k) hval none (some true) err hca
                have h2 : countOcc objPrefixPat err.message.toList
                    + countOcc arrPrefixPat err.message.toList = 0 := by
                  simpa [truthy] using hih.2
                exact ⟨hih.1, by omega, by omega⟩
              | unk =>
                simp only [childAttempt, hk0] at hca
                have hpn := plain_leaf_path_none cs hps.2 (Or.inr hk0) (getFieldD fields k)
                  noOpts err hca
                have hih := ih cs hsz hps.2 (getFieldD fields k) hval none none err hca
                have h2 : countOcc objPrefixPat err.message.toList
                    + countOcc arrPrefixPat err.message.toList = 0 := by
                  have h3 := hih.2
                  rw [hpn] at h3
                  simpa [truthy] using h3
                exact ⟨hih.1, by omega, by omega⟩
              | plain =>
                simp only [childAttempt, hk0] at hca
                have hpn := plain_leaf_path_none cs hps.2 (Or.inl hk0) (getFieldD fields k)
                  noOpts err hca
                have hih := ih cs hsz hps.2 (getFieldD fields k) hval none none err hca
                have h2 : countOcc objPrefixPat err.message.toList
                    + countOcc arrPrefixPat err.message.toList = 0 := by
                  have h3 := hih.2
                  rw [hpn] at h3
                  simpa [truthy] using h3
                exact ⟨hih.1, by omega, by omega⟩
          have hsegs : ∀ seg ∈ Seg.key k :: err.path.getD [], segClean seg = true := by
            intro seg hseg
            rcases List.mem_cons.mp hseg with hseg | hseg
            · rw [hseg]; exact hps.1
            · exact hchild.1 seg hseg
          cases htr : truthy sup with
          | true =>
            have hS := hflag.trans htr
            have hW : wrapObjectErr true k err
                = ⟨err.message, some (Seg.key k :: err.path.getD [])⟩ := rfl
            rw [he, hS, hW]
            refine ⟨fun seg hseg => hsegs seg hseg, ?_⟩
            show countOcc objPrefixPat err.message.toList
                + countOcc arrPrefixPat err.message.toList
                = if true = true then 0
                  else if (some (Seg.key k :: err.path.getD [])).isSome then 1 else 0
            rw [if_pos rfl, hchild.2.1, hchild.2.2]
          | false =>
            have hS := hflag.trans htr
            have hW : wrapObjectErr false k err
                = ⟨"error parsing object at path: \""
                    ++ prettyPrintPath (Seg.key k :: err.path.getD [])
                    ++ "\" - " ++ err.message,
                   some (Seg.key k :: err.path.getD [])⟩ := rfl
            rw [he, hS, hW]
            refine ⟨fun seg hseg => hsegs seg hseg, ?_⟩
            show countOcc objPrefixPat
                  ("error parsing object at path: \""
                    ++ prettyPrintPath (Seg.key k :: err.path.getD [])
                    ++ "\" - " ++ err.message).toList
                + countOcc arrPrefixPat
                  ("error parsing object at path: \""
                    ++ prettyPrintPath (Seg.key k :: err.path.getD [])
                    ++ "\" - " ++ err.message).toList
                = if false = true then 0
                  else if (some (Seg.key k :: err.path.getD [])).isSome then 1 else 0
            have hpp := prettyPrintPath_chars (Seg.key k :: err.path.getD []) hsegs
            have hcw := countOcc_objWrap
              (prettyPrintPath (Seg.key k :: err.path.getD [])).toList
              err.message.toList hpp hchild.2.1 hchild.2.2
            rw [if_neg (by decide),
              if_pos (show (some (Seg.key k :: err.path.getD [])).isSome = true from rfl),
              objWrap_toList, hcw.1, hcw.2]

/-- Claim C1 (refuted as stated): a top-level validation call with no
suppression flag can raise a message containing the human-readable path prefix
more than once.  `object({a: union([object({b: string})])})` on `{a: {b: 1}}`
fails at the top level with a message carrying two object-wrap prefixes: the
union candidate is validated without suppression (`UnionType.parse` passes no
options), so the inner object wraps its own prefix, and the aggregated union
message is wrapped a second time by the outer object. -/
theorem c1_counterexample :
    Schema.parse
        (.object (.cons "a"
            (.union (.cons (.object (.cons "b" .string .nil) ⟨none, none⟩) .nil) none)
          .nil) ⟨none, none⟩)
        (.vobj (.cons "a" (.vobj (.cons "b" (.vnum 1) .nil)) .nil)) noOpts
      = .error ⟨"error parsing object at path: \"a\" - No union satisfied:\n  error parsing object at path: \"b\" - expected type to be string but got number",
                some [Seg.key "a"]⟩
    ∧ countOcc objPrefixPat
        ("error parsing object at path: \"a\" - No union satisfied:\n  error parsing object at path: \"b\" - expected type to be string but got number").toList
      = 2 :=
  ⟨rfl, by decide⟩

/-- Claim C1 (corrected, amended): for schemas in the object/array fragment
(no union, intersection, or literal nodes, no node-level suppression option,
alphanumeric declared keys) and input values with alphanumeric object keys, a
top-level validation call with no options raises, on failure, a message that
contains a human-readable path prefix (object-form and array-form wrap
occurrences counted together) exactly once when the error carries a path, and
not at all otherwise (type mismatches at the root and the unexpected-keys
failure have no path and no prefix).  Unions and intersections break the claim
as stated (`c1_counterexample`). -/
theorem c1_exactly_one_prefix (s : Schema) (hplain : plainS s = true)
    (v : Value) (hv : cleanV v = true) (e : ValidationError)
    (h : Schema.parse s v noOpts = .error e) :
    countOcc objPrefixPat e.message.toList + countOcc arrPrefixPat e.message.toList
      = if e.path.isSome then 1 else 0 := by
  have h2 := (c1_main (sizeOf s) s le_rfl hplain v hv none none e h).2
  simpa [truthy] using h2

/-- Witness for the amended C1: `object({a: object({b: string})})` on
`{a: {b: 1}}` raises a pathful error whose message holds exactly one wrap
prefix. -/
theorem c1_witness :
    plainS (.object (.cons "a" (.object (.cons "b" .string .nil) ⟨none, none⟩) .nil)
        ⟨none, none⟩) = true
    ∧ cleanV (.vobj (.cons "a" (.vobj (.cons "b" (.vnum 1) .nil)) .nil)) = true
    ∧ Schema.parse
        (.object (.cons "a" (.object (.cons "b" .string .nil) ⟨none, none⟩) .nil) ⟨none, none⟩)
        (.vobj (.cons "a" (.vobj (.cons "b" (.vnum 1) .nil)) .nil)) noOpts
      = .error ⟨"error parsing object at path: \"a.b\" - expected type to be string but got number",
                some [Seg.key "a", Seg.key "b"]⟩
    ∧ countOcc objPrefixPat
          ("error parsing object at path: \"a.b\" - expected type to be string but got number").toList
        + countOcc arrPrefixPat
          ("error parsing object at path: \"a.b\" - expected type to be string but got number").toList
      = 1 :=
  ⟨by decide, by decide, rfl,
   c1_exactly_one_prefix
     (.object (.cons "a" (.object (.cons "b" .string .nil) ⟨none, none⟩) .nil) ⟨none, none⟩)
     (by decide)
     (.vobj (.cons "a" (.vobj (.cons "b" (.vnum 1) .nil)) .nil)) (by decide)
     ⟨"error parsing object at path: \"a.b\" - expected type to be string but got number",
      some [Seg.key "a", Seg.key "b"]⟩ rfl⟩

end Myzod
